import Mathlib

/-!
Verification of `scripts/version_manager.py` (Unified Data Studio v2).

File contents are modelled as `List Char`.  Python's regular-expression
operations are modelled by small deterministic character machines: each of
the three patterns used by the source
  * `^version\s*=\s*"[^"]*"` (MULTILINE)  in `update_backend_version`,
  * `"version":\s*"[^"]*"`                in `update_frontend_version`,
  * `return '1\.0\.0'`                    in `update_typescript_version`
is a regex without backtracking ambiguity (each starred class is followed by
a character it cannot match), so a maximal-munch machine computes exactly
the match of the Python engine.  `\s` and `\d` are modelled over their ASCII
ranges, matching the data the tool processes.
-/

/-- The apostrophe character, written via its code point. -/
def apos : Char := Char.ofNat 39

/-- The double-quote character, written via its code point. -/
def dq : Char := Char.ofNat 34

/-- ASCII range of Python's regex class `\s` (and of `str.strip`). -/
def pySpace (c : Char) : Bool :=
  c = ' ' || c = '\t' || c = '\n' || c = '\r' || c = '\x0b' || c = '\x0c'

/-- Decimal digit character for `d < 10`, as produced by Python's `str.format`. -/
def digitCh (d : Nat) : Char := Char.ofNat (48 + d)

/-- Fuel-indexed decimal rendering; `natRepr` supplies sufficient fuel. -/
def natReprAux : Nat → Nat → List Char
  | 0, _ => []
  | f + 1, n =>
    if n < 10 then [digitCh n]
    else natReprAux f (n / 10) ++ [digitCh (n % 10)]

/-- Decimal rendering of a natural number, modelling Python `f"{n}"`. -/
def natRepr (n : Nat) : List Char := natReprAux (n + 1) n

/-- Numeric value of a digit list (used to model Python `int`). -/
def natVal (cs : List Char) : Nat :=
  cs.foldl (fun n c => n * 10 + (c.toNat - 48)) 0

/-- Python `int(s)` as used on the `\d+` components of a version string:
defined on non-empty all-digit inputs. -/
def pyIntL (cs : List Char) : Option Nat :=
  if cs ≠ [] ∧ cs.all Char.isDigit then some (natVal cs) else none

/-- Python `s.split('.')`: split on every dot, keeping empty pieces. -/
def pySplitDot : List Char → List (List Char)
  | [] => [[]]
  | c :: cs =>
    if c = '.' then [] :: pySplitDot cs
    else
      match pySplitDot cs with
      | [] => [[c]]
      | h :: t => (c :: h) :: t

/-- Python `str.strip()` over the ASCII whitespace range. -/
def pyStrip (cs : List Char) : List Char :=
  ((cs.dropWhile (fun c => pySpace c)).reverse.dropWhile (fun c => pySpace c)).reverse

/-- Skip a maximal run of decimal digits. -/
def skipDigits : List Char → List Char
  | [] => []
  | c :: cs => if c.isDigit then skipDigits cs else c :: cs

/-- Consume `\d+` (one digit then a maximal digit run). -/
def parseDigits1 : List Char → Option (List Char)
  | [] => none
  | c :: cs => if c.isDigit then some (skipDigits cs) else none

/-- After a `\d+` component: require a dot, then consume the next `\d+`. -/
def expectDotDigits (o : Option (List Char)) : Option (List Char) :=
  match o with
  | some (c :: r) => if c = '.' then parseDigits1 r else none
  | _ => none

/-- Does an optional leftover witness a complete match (`$`)? -/
def isSomeNil (o : Option (List Char)) : Bool :=
  match o with
  | some [] => true
  | _ => false

/-- `re.match(r'^\d+\.\d+\.\d+$', s)` as a Boolean: the stripped version text
must be exactly digits, dot, digits, dot, digits. -/
def isValidVersionL (cs : List Char) : Bool :=
  isSomeNil (expectDotDigits (expectDotDigits (parseDigits1 cs)))

/-- Serialization `f"{major}.{minor}.{patch}"` of a version triple. -/
def renderVer (a b c : Nat) : List Char :=
  natRepr a ++ '.' :: (natRepr b ++ '.' :: natRepr c)

/-- States shared by the three pattern machines: literal progress, `\s*` before
`=`, `\s*` before a quote, and the `[^"]*` body of a quoted field. -/
inductive PStA where
  | lit : List Char → PStA
  | eqs : PStA
  | qs : PStA
  | body : PStA
deriving DecidableEq

/-- Result of one machine step: dead, continue in a state, or match complete. -/
inductive StepRes where
  | fail : StepRes
  | cont : PStA → StepRes
  | done : StepRes
deriving DecidableEq

/-- Run a pattern machine at the start of the input; `some rest` means a match
ending exactly where `rest` begins (the anchored-at-position match of the
Python engine). -/
def runM (step : PStA → Char → StepRes) : PStA → List Char → Option (List Char)
  | _, [] => none
  | s, c :: cs =>
    match step s c with
    | .fail => none
    | .done => some cs
    | .cont s2 => runM step s2 cs

/-- Result of feeding a prefix to a machine. -/
inductive CRes where
  | fail : CRes
  | done : List Char → CRes
  | more : PStA → CRes

/-- Feed a whole list to a machine, reporting whether it failed, completed a
match (with leftover), or needs more input. -/
def consume (step : PStA → Char → StepRes) : PStA → List Char → CRes
  | s, [] => .more s
  | s, c :: cs =>
    match step s c with
    | .fail => .fail
    | .done => .done cs
    | .cont s2 => consume step s2 cs

/-- `re.search`: is there a match at some position?  When `anch` is true the
pattern is `^`-anchored under `re.MULTILINE`, so a match may start only where
the line-start flag holds (position 0 or right after a newline). -/
def searchA (anch : Bool) (step : PStA → Char → StepRes) (s0 : PStA) :
    Bool → List Char → Bool
  | _, [] => false
  | flag, c :: cs =>
    ((!anch || flag) && (runM step s0 (c :: cs)).isSome) || searchA anch step s0 (c = '\n') cs

/-- `re.sub`: replace every non-overlapping match, scanning left to right,
restarting right after each replacement.  Fuel-indexed; each step consumes at
least one character, so fuel `cs.length` suffices. -/
def substAux (anch : Bool) (step : PStA → Char → StepRes) (s0 : PStA)
    (repl : List Char) : Nat → Bool → List Char → List Char
  | 0, _, cs => cs
  | _ + 1, _, [] => []
  | f + 1, flag, c :: cs =>
    if !anch || flag then
      match runM step s0 (c :: cs) with
      | some rest => repl ++ substAux anch step s0 repl f false rest
      | none => c :: substAux anch step s0 repl f (c = '\n') cs
    else c :: substAux anch step s0 repl f (c = '\n') cs

/-- `re.sub` over a whole input (line-start flag initially true). -/
def subst (anch : Bool) (step : PStA → Char → StepRes) (s0 : PStA)
    (repl : List Char) (flag : Bool) (cs : List Char) : List Char :=
  substAux anch step s0 repl cs.length flag cs

/-- Literal of the backend pattern `^version\s*=\s*"[^"]*"`. -/
def cargoLit : List Char := ['v', 'e', 'r', 's', 'i', 'o', 'n']

/-- Machine of the backend pattern: literal `version`, `\s*`, `=`, `\s*`,
`"`, `[^"]*`, `"`. -/
def cargoStep : PStA → Char → StepRes
  | .lit [], _ => .fail
  | .lit [p], c => if c = p then .cont .eqs else .fail
  | .lit (p :: q :: r), c => if c = p then .cont (.lit (q :: r)) else .fail
  | .eqs, c => if pySpace c then .cont .eqs else if c = '=' then .cont .qs else .fail
  | .qs, c => if pySpace c then .cont .qs else if c = dq then .cont .body else .fail
  | .body, c => if c = dq then .done else .cont .body

/-- Replacement `f'version = "{self.version}"'` of `update_backend_version`. -/
def cargoRepl (v : List Char) : List Char :=
  ['v', 'e', 'r', 's', 'i', 'o', 'n', ' ', '=', ' ', dq] ++ v ++ [dq]

/-- `re.search` of the backend pattern (MULTILINE-anchored). -/
def searchCargo (cs : List Char) : Bool := searchA true cargoStep (.lit cargoLit) true cs

/-- `re.sub` of the backend pattern (MULTILINE-anchored). -/
def subCargo (v cs : List Char) : List Char :=
  subst true cargoStep (.lit cargoLit) (cargoRepl v) true cs

/-- Literal of the frontend pattern `"version":\s*"[^"]*"`. -/
def frontLit : List Char := [dq, 'v', 'e', 'r', 's', 'i', 'o', 'n', dq, ':']

/-- Machine of the frontend pattern: literal `"version":`, `\s*`, `"`,
`[^"]*`, `"`. -/
def frontStep : PStA → Char → StepRes
  | .lit [], _ => .fail
  | .lit [p], c => if c = p then .cont .qs else .fail
  | .lit (p :: q :: r), c => if c = p then .cont (.lit (q :: r)) else .fail
  | .eqs, _ => .fail
  | .qs, c => if pySpace c then .cont .qs else if c = dq then .cont .body else .fail
  | .body, c => if c = dq then .done else .cont .body

/-- Replacement `f'"version": "{self.version}"'` of `update_frontend_version`. -/
def frontRepl (v : List Char) : List Char :=
  [dq, 'v', 'e', 'r', 's', 'i', 'o', 'n', dq, ':', ' ', dq] ++ v ++ [dq]

/-- `re.search` of the frontend pattern (unanchored). -/
def searchFront (cs : List Char) : Bool := searchA false frontStep (.lit frontLit) true cs

/-- `re.sub` of the frontend pattern (unanchored). -/
def subFront (v cs : List Char) : List Char :=
  subst false frontStep (.lit frontLit) (frontRepl v) true cs

/-- Literal of the TypeScript pattern `return '1\.0\.0'`. -/
def tsLit : List Char :=
  ['r', 'e', 't', 'u', 'r', 'n', ' ', apos, '1', '.', '0', '.', '0', apos]

/-- Machine of the TypeScript pattern: a pure literal. -/
def tsStep : PStA → Char → StepRes
  | .lit [p], c => if c = p then .done else .fail
  | .lit (p :: q :: r), c => if c = p then .cont (.lit (q :: r)) else .fail
  | _, _ => .fail

/-- Replacement `f"return '{self.version}'"` of `update_typescript_version`. -/
def tsRepl (v : List Char) : List Char :=
  ['r', 'e', 't', 'u', 'r', 'n', ' ', apos] ++ v ++ [apos]

/-- `re.search` of the TypeScript pattern (unanchored). -/
def searchTs (cs : List Char) : Bool := searchA false tsStep (.lit tsLit) true cs

/-- `re.sub` of the TypeScript pattern (unanchored). -/
def subTs (v cs : List Char) : List Char :=
  subst false tsStep (.lit tsLit) (tsRepl v) true cs

/-- The project files the tool touches, each `none` (absent) or `some` content.
Paths are fixed by the source: `VERSION`, `backend/Cargo.toml`,
`frontend/package.json`, the two TypeScript service files, and the generated
`frontend/src/version.ts`. -/
structure FS where
  version_file : Option (List Char)
  cargo : Option (List Char)
  package : Option (List Char)
  autoUpdater : Option (List Char)
  backendService : Option (List Char)
  versionTs : Option (List Char)
deriving DecidableEq

/-- Exceptions of the source, by site: `FileNotFoundError` from
`_read_version`; `ValueError` for a malformed version string; `ValueError`
for an unsupported bump type; any exception inside a `try` block of the
update operations. -/
inductive PyError where
  | fileNotFound : PyError
  | valueErr : PyError
  | invalidBumpType : PyError
  | ioErr : PyError
deriving DecidableEq

/-- Whether each `open`/`read`/`write` inside a `try` block of the update
operations raises; `some msg` models an exception whose rendered message is
`msg`.  Reads and writes outside `try` blocks are modelled as reliable. -/
structure Oracle where
  cargoRead : Option String
  cargoWrite : Option String
  pkgRead : Option String
  pkgWrite : Option String
  ts1Read : Option String
  ts1Write : Option String
  ts2Read : Option String
  ts2Write : Option String
  hdrWrite : Option String
deriving DecidableEq

/-- The oracle on which no operation raises. -/
def reliable : Oracle := ⟨none, none, none, none, none, none, none, none, none⟩

/-- In-memory state of a `VersionManager`: its `self.version`. -/
structure Mgr where
  version : List Char
deriving DecidableEq

/-- `VersionManager._read_version`: `FileNotFoundError` when `VERSION` is
absent, else strip the content and validate it against `^\d+\.\d+\.\d+$`
(`ValueError` on mismatch). -/
def _read_version (fs : FS) : Except PyError (List Char) :=
  match fs.version_file with
  | none => .error .fileNotFound
  | some content =>
    let version := pyStrip content
    if isValidVersionL version then .ok version else .error .valueErr

/-- `VersionManager.__init__`: read and validate the canonical version. -/
def init_manager (fs : FS) : Except PyError Mgr :=
  (_read_version fs).map Mgr.mk

/-- `VersionManager.update_backend_version`: rewrite the version line of
`backend/Cargo.toml`; result is (returned flag, file system, printed lines). -/
def update_backend_version (v : List Char) (o : Oracle) (fs : FS) :
    Bool × FS × List String :=
  match fs.cargo with
  | none => (false, fs, ["⚠️  Backend Cargo.toml not found at backend/Cargo.toml"])
  | some content =>
    match o.cargoRead with
    | some e => (false, fs, ["❌ Error updating backend version: " ++ e])
    | none =>
      if searchCargo content then
        match o.cargoWrite with
        | some e => (false, fs, ["❌ Error updating backend version: " ++ e])
        | none =>
          (true, { fs with cargo := some (subCargo v content) },
            ["✅ Backend version updated to " ++ String.mk v])
      else (false, fs, ["⚠️  Version line not found in backend/Cargo.toml"])

/-- `VersionManager.update_frontend_version`: rewrite the `"version"` field of
`frontend/package.json`. -/
def update_frontend_version (v : List Char) (o : Oracle) (fs : FS) :
    Bool × FS × List String :=
  match fs.package with
  | none => (false, fs, ["⚠️  Frontend package.json not found at frontend/package.json"])
  | some content =>
    match o.pkgRead with
    | some e => (false, fs, ["❌ Error updating frontend version: " ++ e])
    | none =>
      if searchFront content then
        match o.pkgWrite with
        | some e => (false, fs, ["❌ Error updating frontend version: " ++ e])
        | none =>
          (true, { fs with package := some (subFront v content) },
            ["✅ Frontend version updated to " ++ String.mk v])
      else (false, fs, ["⚠️  Version line not found in frontend/package.json"])

/-- One iteration of the loop of `update_typescript_version`: a single
TypeScript file, with its own `try`. -/
def update_ts_file (v : List Char) (readO writeO : Option String) (path : String)
    (content : Option (List Char)) : Bool × Option (List Char) × List String :=
  match content with
  | none => (false, none, ["⚠️  TypeScript file not found: " ++ path])
  | some c =>
    match readO with
    | some e => (false, some c, ["❌ Error updating " ++ path ++ ": " ++ e])
    | none =>
      if searchTs c then
        match writeO with
        | some e => (false, some c, ["❌ Error updating " ++ path ++ ": " ++ e])
        | none =>
          (true, some (subTs v c), ["✅ TypeScript version updated in " ++ path])
      else (false, some c, ["⚠️  Version string not found in " ++ path])

/-- `VersionManager.update_typescript_version`: rewrite the hardcoded version
literal in the two TypeScript service files; `updated` is true when at least
one file was rewritten. -/
def update_typescript_version (v : List Char) (o : Oracle) (fs : FS) :
    Bool × FS × List String :=
  let r1 := update_ts_file v o.ts1Read o.ts1Write
    "frontend/src/services/AutoUpdater.ts" fs.autoUpdater
  let r2 := update_ts_file v o.ts2Read o.ts2Write
    "frontend/src/services/BackendService.ts" fs.backendService
  (r1.1 || r2.1, { fs with autoUpdater := r1.2.1, backendService := r2.2.1 },
    r1.2.2 ++ r2.2.2)

/-- A string holding one apostrophe. -/
def aposS : String := String.mk [apos]

/-- A newline as a string. -/
def nlS : String := String.mk ['\n']

/-- Text of the generated header before the first version interpolation. -/
def hdrP1 : List Char :=
  ("// Auto-generated version file - DO NOT EDIT MANUALLY" ++ nlS ++
    "// This file is updated automatically by the version manager" ++ nlS ++ nlS ++
    "export const APP_VERSION = " ++ aposS).toList

/-- Text between the two version interpolations (the doubled braces of the
source f-string are literal braces). -/
def hdrP2 : List Char :=
  (aposS ++ ";" ++ nlS ++
    "export const APP_NAME = " ++ aposS ++ "Unified Data Studio v2" ++ aposS ++ ";" ++
    nlS ++ nlS ++
    "// Version information for components" ++ nlS ++
    "export const VERSION_INFO = \x7b" ++ nlS ++
    "  version: " ++ aposS).toList

/-- Text after the second interpolation, up to the build-date line. -/
def hdrP3 : List Char :=
  (aposS ++ "," ++ nlS ++
    "  name: " ++ aposS ++ "Unified Data Studio v2" ++ aposS ++ "," ++ nlS).toList

/-- The build-date line of the generated header: the literal JavaScript
expression `new Date().toISOString()`, evaluated when the artifact runs, not
a timestamp captured at generation time. -/
def hdrBuildDate : List Char := "  buildDate: new Date().toISOString(),".toList

/-- Trailing text of the generated header. -/
def hdrP4 : List Char :=
  (nlS ++ "  environment: process.env.NODE_ENV || " ++ aposS ++ "development" ++
    aposS ++ nlS ++
    "\x7d;" ++ nlS ++ nlS ++
    "export default APP_VERSION;" ++ nlS).toList

/-- Content of the generated `frontend/src/version.ts`, a pure function of the
current version: the f-string of `create_version_header`. -/
def headerContent (v : List Char) : List Char :=
  hdrP1 ++ v ++ hdrP2 ++ v ++ hdrP3 ++ hdrBuildDate ++ hdrP4

/-- `VersionManager.create_version_header`: unconditionally regenerate
`frontend/src/version.ts` from the current version. -/
def create_version_header (v : List Char) (o : Oracle) (fs : FS) :
    Bool × FS × List String :=
  match o.hdrWrite with
  | some e => (false, fs, ["❌ Error creating version header: " ++ e])
  | none =>
    (true, { fs with versionTs := some (headerContent v) },
      ["✅ Version header created at frontend/src/version.ts"])

/-- `VersionManager.update_all_components`: run the three propagation targets
plus the header generation, in source order, collecting the result map (the
insertion-ordered dict, modelled as an association list). -/
def update_all_components (v : List Char) (o : Oracle) (fs : FS) :
    List (String × Bool) × FS × List String :=
  let r1 := update_backend_version v o fs
  let r2 := update_frontend_version v o r1.2.1
  let r3 := update_typescript_version v o r2.2.1
  let r4 := create_version_header v o r3.2.1
  ([("backend", r1.1), ("frontend_package", r2.1), ("typescript", r3.1),
      ("version_header", r4.1)],
    r4.2.1, r1.2.2 ++ r2.2.2 ++ r3.2.2 ++ r4.2.2)

/-- `VersionManager.bump_version`: parse the current version, compute the next
one per bump type (raising `ValueError` on any other type, before any write),
overwrite `VERSION`, and set `self.version`.  Returns (result, manager, file
system, printed lines); on an exception manager and file system are the
untouched inputs. -/
def bump_version (m : Mgr) (bump_type : String) (fs : FS) :
    Except PyError (List Char) × Mgr × FS × List String :=
  match (pySplitDot m.version).map pyIntL with
  | [some major, some minor, some patch] =>
    let next : Option (Nat × Nat × Nat) :=
      if bump_type = "major" then some (major + 1, 0, 0)
      else if bump_type = "minor" then some (major, minor + 1, 0)
      else if bump_type = "patch" then some (major, minor, patch + 1)
      else none
    match next with
    | none => (.error .invalidBumpType, m, fs, [])
    | some (a, b, c) =>
      let new_version := renderVer a b c
      (.ok new_version, ⟨new_version⟩, { fs with version_file := some new_version },
        ["✅ Version bumped to " ++ String.mk new_version])
  | _ => (.error .valueErr, m, fs, [])

/-- `VersionManager.get_version_info`. -/
def get_version_info (m : Mgr) : List (String × String) :=
  [("current_version", String.mk m.version), ("version_file", "VERSION"),
    ("project_root", ".")]

/-- One line of the result report of the `update-all` command. -/
def reportLine (e : String × Bool) : String :=
  "  " ++ e.1 ++ ": " ++ (if e.2 then "✅ Success" else "❌ Failed")

/-- Usage text printed when no command is given. -/
def usageLines : List String :=
  ["Usage: python version_manager.py <command> [options]", "Commands:",
    "  update-all     - Update version in all components",
    "  bump <type>    - Bump version (major|minor|patch)",
    "  info           - Show version information",
    "  create-header  - Create version header file"]

/-- The function `main` of the source (renamed: Lean reserves `main`): command dispatch.  Result is (process exit code, file system,
printed lines).  A bare `return` from `main` is a normal exit (code 0);
`sys.exit(1)` is reached only from the `except` branch, and an exception
escaping `VersionManager()` (constructed before the `try`) also exits
non-zero (modelled as 1, the interpreter's code for an uncaught exception). -/
def mainEntry (argv : List String) (o : Oracle) (fs : FS) : Nat × FS × List String :=
  match argv with
  | [] => (0, fs, usageLines)
  | [_] => (0, fs, usageLines)
  | _ :: command :: rest =>
    match init_manager fs with
    | .error _ => (1, fs, ["Traceback (most recent call last): uncaught exception"])
    | .ok m =>
      if command = "update-all" then
        let r := update_all_components m.version o fs
        (0, r.2.1, r.2.2 ++ [nlS ++ "📊 Update Results:"] ++ r.1.map reportLine)
      else if command = "bump" then
        match rest with
        | [] => (0, fs, ["❌ Please specify bump type: major, minor, or patch"])
        | bump_type :: _ =>
          if bump_type = "major" || bump_type = "minor" || bump_type = "patch" then
            match bump_version m bump_type fs with
            | (.ok nv, m2, fs2, blog) =>
              let r := update_all_components m2.version o fs2
              (0, r.2.1,
                blog ++ ["🚀 Version bumped to " ++ String.mk nv,
                  "🔄 Updating all components..."] ++ r.2.2)
            | (.error _, _, _, blog) => (1, fs, blog ++ ["❌ Error: ValueError"])
          else (0, fs, ["❌ Invalid bump type. Use: major, minor, or patch"])
      else if command = "info" then
        (0, fs, [nlS ++ "📋 Version Information:"] ++
          (get_version_info m).map (fun kv => "  " ++ kv.1 ++ ": " ++ kv.2))
      else if command = "create-header" then
        let r := create_version_header m.version o fs
        (0, r.2.1, r.2.2)
      else
        (0, fs, ["❌ Unknown command: " ++ command,
          "Use: update-all, bump, info, or create-header"])

/-- Characters of a version string: decimal digits and dots. -/
def versionChar (c : Char) : Prop := c.isDigit = true ∨ c = '.'

theorem ne_of_isDigit {c x : Char} (h : c.isDigit = true) (hx : x.isDigit = false) :
    c ≠ x := by
  intro he
  rw [he, hx] at h
  cases h

theorem pySpace_of_isDigit {c : Char} (h : c.isDigit = true) : pySpace c = false := by
  have h1 := ne_of_isDigit h (x := ' ') (by decide)
  have h2 := ne_of_isDigit h (x := '\t') (by decide)
  have h3 := ne_of_isDigit h (x := '\n') (by decide)
  have h4 := ne_of_isDigit h (x := '\r') (by decide)
  have h5 := ne_of_isDigit h (x := '\x0b') (by decide)
  have h6 := ne_of_isDigit h (x := '\x0c') (by decide)
  simp [pySpace, h1, h2, h3, h4, h5, h6]

theorem versionChar_ne_dq {c : Char} (h : versionChar c) : c ≠ dq := by
  rcases h with h | h
  · exact ne_of_isDigit h (by decide)
  · rw [h]; decide

theorem versionChar_ne_apos {c : Char} (h : versionChar c) : c ≠ apos := by
  rcases h with h | h
  · exact ne_of_isDigit h (by decide)
  · rw [h]; decide

theorem versionChar_ne_r {c : Char} (h : versionChar c) : c ≠ 'r' := by
  rcases h with h | h
  · exact ne_of_isDigit h (by decide)
  · rw [h]; decide

theorem versionChar_not_space {c : Char} (h : versionChar c) : pySpace c = false := by
  rcases h with h | h
  · exact pySpace_of_isDigit h
  · rw [h]; decide

theorem digitCh_isDigit {d : Nat} (h : d < 10) : (digitCh d).isDigit = true := by
  interval_cases d <;> decide

theorem digitCh_toNat {d : Nat} (h : d < 10) : (digitCh d).toNat = 48 + d := by
  interval_cases d <;> decide

theorem natReprAux_spec : ∀ f n, n < f →
    natReprAux f n ≠ [] ∧ (∀ c ∈ natReprAux f n, c.isDigit = true) ∧
      natVal (natReprAux f n) = n := by
  intro f
  induction f with
  | zero => intro n hn; omega
  | succ f ih =>
    intro n hn
    by_cases h10 : n < 10
    · refine ⟨by simp [natReprAux, h10], ?_, ?_⟩
      · intro c hc
        simp [natReprAux, h10] at hc
        rw [hc]
        exact digitCh_isDigit h10
      · simp [natReprAux, h10, natVal, digitCh_toNat h10]
    · have hdiv : n / 10 < f := by
        have := Nat.div_lt_self (by omega : 0 < n) (by omega : 1 < 10)
        omega
      obtain ⟨hne, hdig, hval⟩ := ih (n / 10) hdiv
      have hmod : n % 10 < 10 := Nat.mod_lt _ (by omega)
      refine ⟨by simp [natReprAux, h10], ?_, ?_⟩
      · intro c hc
        simp only [natReprAux, if_neg h10, List.mem_append, List.mem_singleton] at hc
        rcases hc with hc | hc
        · exact hdig c hc
        · rw [hc]; exact digitCh_isDigit hmod
      · simp only [natReprAux, if_neg h10]
        unfold natVal
        rw [List.foldl_append]
        unfold natVal at hval
        simp only [List.foldl, hval, digitCh_toNat hmod]
        omega

theorem natRepr_ne_nil (n : Nat) : natRepr n ≠ [] :=
  (natReprAux_spec (n + 1) n (by omega)).1

theorem natRepr_all_digit (n : Nat) : ∀ c ∈ natRepr n, c.isDigit = true :=
  (natReprAux_spec (n + 1) n (by omega)).2.1

theorem natVal_natRepr (n : Nat) : natVal (natRepr n) = n :=
  (natReprAux_spec (n + 1) n (by omega)).2.2

theorem pyIntL_natRepr (n : Nat) : pyIntL (natRepr n) = some n := by
  unfold pyIntL
  rw [if_pos, natVal_natRepr]
  exact ⟨natRepr_ne_nil n, List.all_eq_true.mpr (natRepr_all_digit n)⟩

theorem natRepr_no_dot (n : Nat) : ∀ c ∈ natRepr n, c ≠ '.' := fun c hc =>
  ne_of_isDigit (natRepr_all_digit n c hc) (by decide)

theorem pySplitDot_ne_nil : ∀ cs, pySplitDot cs ≠ [] := by
  intro cs
  cases cs with
  | nil => simp [pySplitDot]
  | cons c t =>
    by_cases h : c = '.'
    · simp [pySplitDot, h]
    · simp only [pySplitDot, if_neg h]
      cases pySplitDot t <;> simp

theorem pySplitDot_cons (a : Char) (t : List Char) :
    pySplitDot (a :: t) =
      (if a = '.' then [] :: pySplitDot t
       else match pySplitDot t with
            | [] => [[a]]
            | h :: t2 => (a :: h) :: t2) := rfl

theorem pySplitDot_append_dot : ∀ (A rest : List Char), (∀ c ∈ A, c ≠ '.') →
    pySplitDot (A ++ '.' :: rest) = A :: pySplitDot rest := by
  intro A
  induction A with
  | nil => intro rest _; simp [pySplitDot]
  | cons a t ih =>
    intro rest h
    have ha : a ≠ '.' := h a (by simp)
    have hstep : (a :: t) ++ '.' :: rest = a :: (t ++ '.' :: rest) := rfl
    rw [hstep, pySplitDot_cons, if_neg ha, ih rest (fun c hc => h c (by simp [hc]))]

theorem pySplitDot_no_dot : ∀ (A : List Char), (∀ c ∈ A, c ≠ '.') →
    pySplitDot A = [A] := by
  intro A
  induction A with
  | nil => intro _; rfl
  | cons a t ih =>
    intro h
    have ha : a ≠ '.' := h a (by simp)
    rw [pySplitDot_cons, if_neg ha, ih (fun c hc => h c (by simp [hc]))]

theorem pySplitDot_renderVer (a b c : Nat) :
    pySplitDot (renderVer a b c) = [natRepr a, natRepr b, natRepr c] := by
  unfold renderVer
  rw [pySplitDot_append_dot _ _ (natRepr_no_dot a),
    pySplitDot_append_dot _ _ (natRepr_no_dot b),
    pySplitDot_no_dot _ (natRepr_no_dot c)]

theorem skipDigits_cons (a : Char) (t : List Char) :
    skipDigits (a :: t) = if a.isDigit = true then skipDigits t else a :: t := rfl

theorem parseDigits1_cons (a : Char) (t : List Char) :
    parseDigits1 (a :: t) =
      if a.isDigit = true then some (skipDigits t) else none := rfl

theorem skipDigits_append : ∀ (A rest : List Char), (∀ c ∈ A, c.isDigit = true) →
    skipDigits (A ++ rest) = skipDigits rest := by
  intro A
  induction A with
  | nil => intro rest _; rfl
  | cons a t ih =>
    intro rest h
    have ha : a.isDigit = true := h a (by simp)
    have hstep : (a :: t) ++ rest = a :: (t ++ rest) := rfl
    rw [hstep, skipDigits_cons, if_pos ha]
    exact ih rest (fun c hc => h c (by simp [hc]))

theorem skipDigits_no_digit : ∀ (cs : List Char),
    (cs = [] ∨ ∃ c t, cs = c :: t ∧ c.isDigit = false) → skipDigits cs = cs := by
  intro cs h
  rcases h with h | ⟨c, t, rfl, hc⟩
  · rw [h]; rfl
  · rw [skipDigits_cons, if_neg (by simp [hc])]

theorem parseDigits1_all : ∀ (A rest : List Char), A ≠ [] →
    (∀ c ∈ A, c.isDigit = true) →
    (rest = [] ∨ ∃ c t, rest = c :: t ∧ c.isDigit = false) →
    parseDigits1 (A ++ rest) = some rest := by
  intro A rest hA hdig hrest
  cases A with
  | nil => exact absurd rfl hA
  | cons a t =>
    have ha : a.isDigit = true := hdig a (by simp)
    have hstep : (a :: t) ++ rest = a :: (t ++ rest) := rfl
    rw [hstep, parseDigits1_cons, if_pos ha,
      skipDigits_append t rest (fun c hc => hdig c (by simp [hc])),
      skipDigits_no_digit rest hrest]

theorem parseDigits1_digits : ∀ (A : List Char), A ≠ [] →
    (∀ c ∈ A, c.isDigit = true) → parseDigits1 A = some [] := by
  intro A hA hdig
  have := parseDigits1_all A [] hA hdig (Or.inl rfl)
  simpa using this

theorem expectDotDigits_dot (r : List Char) :
    expectDotDigits (some ('.' :: r)) = parseDigits1 r := by
  simp [expectDotDigits]

theorem isValidVersionL_renderVer (a b c : Nat) :
    isValidVersionL (renderVer a b c) = true := by
  unfold renderVer isValidVersionL
  rw [parseDigits1_all (natRepr a) _ (natRepr_ne_nil a) (natRepr_all_digit a)
    (Or.inr ⟨'.', _, rfl, by decide⟩), expectDotDigits_dot,
    parseDigits1_all (natRepr b) _ (natRepr_ne_nil b) (natRepr_all_digit b)
    (Or.inr ⟨'.', _, rfl, by decide⟩), expectDotDigits_dot,
    parseDigits1_digits (natRepr c) (natRepr_ne_nil c) (natRepr_all_digit c)]
  rfl

theorem skipDigits_decomp : ∀ (cs r : List Char), skipDigits cs = r →
    ∃ D, cs = D ++ r ∧ (∀ c ∈ D, c.isDigit = true) := by
  intro cs
  induction cs with
  | nil =>
    intro r h
    exact ⟨[], by simpa [skipDigits] using h.symm, by simp⟩
  | cons a t ih =>
    intro r h
    rw [skipDigits_cons] at h
    by_cases ha : a.isDigit = true
    · rw [if_pos ha] at h
      obtain ⟨D, hD, hdig⟩ := ih r h
      refine ⟨a :: D, by simp [hD], ?_⟩
      intro c hc
      rcases List.mem_cons.mp hc with hc | hc
      · rw [hc]; exact ha
      · exact hdig c hc
    · rw [if_neg ha] at h
      exact ⟨[], by simp [h.symm], by simp⟩

theorem parseDigits1_decomp : ∀ (cs r : List Char), parseDigits1 cs = some r →
    ∃ A, cs = A ++ r ∧ A ≠ [] ∧ (∀ c ∈ A, c.isDigit = true) := by
  intro cs r h
  cases cs with
  | nil => simp [parseDigits1] at h
  | cons a t =>
    rw [parseDigits1_cons] at h
    by_cases ha : a.isDigit = true
    · rw [if_pos ha] at h
      obtain ⟨D, hD, hdig⟩ := skipDigits_decomp t r (Option.some.inj h)
      refine ⟨a :: D, by simp [hD], by simp, ?_⟩
      intro c hc
      rcases List.mem_cons.mp hc with hc | hc
      · rw [hc]; exact ha
      · exact hdig c hc
    · rw [if_neg ha] at h
      cases h

theorem isSomeNil_decomp {o : Option (List Char)} (h : isSomeNil o = true) :
    o = some [] := by
  cases o with
  | none => simp [isSomeNil] at h
  | some l =>
    cases l with
    | nil => rfl
    | cons a t => simp [isSomeNil] at h

theorem expectDotDigits_decomp {o : Option (List Char)} {r : List Char}
    (h : expectDotDigits o = some r) :
    ∃ r2, o = some ('.' :: r2) ∧ parseDigits1 r2 = some r := by
  cases o with
  | none => simp [expectDotDigits] at h
  | some l =>
    cases l with
    | nil => simp [expectDotDigits] at h
    | cons c t =>
      by_cases hc : c = '.'
      · subst hc
        rw [expectDotDigits_dot] at h
        exact ⟨t, rfl, h⟩
      · simp [expectDotDigits, hc] at h

theorem isValidVersionL_decomp {cs : List Char} (h : isValidVersionL cs = true) :
    ∃ A B C : List Char, cs = A ++ '.' :: (B ++ '.' :: C) ∧
      A ≠ [] ∧ B ≠ [] ∧ C ≠ [] ∧
      (∀ c ∈ A, c.isDigit = true) ∧ (∀ c ∈ B, c.isDigit = true) ∧
      (∀ c ∈ C, c.isDigit = true) := by
  unfold isValidVersionL at h
  obtain ⟨r3, h3, hp3⟩ := expectDotDigits_decomp (isSomeNil_decomp h)
  obtain ⟨r1, h1, hp1⟩ := expectDotDigits_decomp h3
  obtain ⟨A, hA, hAne, hAdig⟩ := parseDigits1_decomp cs _ h1
  obtain ⟨B, hB, hBne, hBdig⟩ := parseDigits1_decomp r1 _ hp1
  obtain ⟨C, hC, hCne, hCdig⟩ := parseDigits1_decomp r3 _ hp3
  refine ⟨A, B, C, ?_, hAne, hBne, hCne, hAdig, hBdig, hCdig⟩
  simp only [List.append_nil] at hC
  rw [hA, hB, hC]

theorem isValidVersionL_chars {cs : List Char} (h : isValidVersionL cs = true) :
    ∀ c ∈ cs, versionChar c := by
  obtain ⟨A, B, C, rfl, _, _, _, hA, hB, hC⟩ := isValidVersionL_decomp h
  intro c hc
  simp only [List.mem_append, List.mem_cons] at hc
  rcases hc with hc | hc | hc | hc | hc
  · exact Or.inl (hA c hc)
  · exact Or.inr hc
  · exact Or.inl (hB c hc)
  · exact Or.inr hc
  · exact Or.inl (hC c hc)

theorem dropWhile_eq_self_of {p : Char → Bool} :
    ∀ l : List Char, (∀ c ∈ l, p c = false) → l.dropWhile p = l := by
  intro l h
  cases l with
  | nil => rfl
  | cons a t => simp [List.dropWhile_cons, h a (by simp)]

theorem pyStrip_eq_self {cs : List Char} (h : ∀ c ∈ cs, pySpace c = false) :
    pyStrip cs = cs := by
  unfold pyStrip
  rw [dropWhile_eq_self_of cs h, dropWhile_eq_self_of cs.reverse
    (fun c hc => h c (List.mem_reverse.mp hc)), List.reverse_reverse]

theorem pyStrip_renderVer (a b c : Nat) :
    pyStrip (renderVer a b c) = renderVer a b c :=
  pyStrip_eq_self (fun x hx =>
    versionChar_not_space (isValidVersionL_chars (isValidVersionL_renderVer a b c) x hx))

theorem runM_cons (step : PStA → Char → StepRes) (s : PStA) (c : Char)
    (cs : List Char) :
    runM step s (c :: cs) =
      (match step s c with
       | .fail => none
       | .done => some cs
       | .cont s2 => runM step s2 cs) := rfl

theorem consume_cons (step : PStA → Char → StepRes) (s : PStA) (c : Char)
    (cs : List Char) :
    consume step s (c :: cs) =
      (match step s c with
       | .fail => .fail
       | .done => .done cs
       | .cont s2 => consume step s2 cs) := rfl

theorem consume_spec (step : PStA → Char → StepRes) :
    ∀ (a : List Char) (s : PStA) (b : List Char),
      runM step s (a ++ b) =
        (match consume step s a with
         | .fail => none
         | .done r => some (r ++ b)
         | .more s2 => runM step s2 b) := by
  intro a
  induction a with
  | nil => intro s b; rfl
  | cons c a ih =>
    intro s b
    have hstep : (c :: a) ++ b = c :: (a ++ b) := rfl
    rw [hstep, runM_cons, consume_cons]
    cases step s c with
    | fail => rfl
    | done => rfl
    | cont s2 => exact ih s2 b

theorem runM_some_length (step : PStA → Char → StepRes) :
    ∀ (cs : List Char) (s : PStA) (r : List Char),
      runM step s cs = some r → r.length < cs.length := by
  intro cs
  induction cs with
  | nil => intro s r h; cases h
  | cons c t ih =>
    intro s r h
    rw [runM_cons] at h
    cases hstep : step s c with
    | fail => rw [hstep] at h; cases h
    | done =>
      rw [hstep] at h
      rw [Option.some.inj h]
      simp
    | cont s2 =>
      rw [hstep] at h
      have := ih s2 r h
      simp only [List.length_cons]
      omega

theorem runM_decomp (step : PStA → Char → StepRes) :
    ∀ (cs : List Char) (s : PStA) (r : List Char),
      runM step s cs = some r → ∃ m, cs = m ++ r ∧ m ≠ [] := by
  intro cs
  induction cs with
  | nil => intro s r h; cases h
  | cons c t ih =>
    intro s r h
    rw [runM_cons] at h
    cases hstep : step s c with
    | fail => rw [hstep] at h; cases h
    | done =>
      rw [hstep] at h
      exact ⟨[c], by simp [Option.some.inj h], by simp⟩
    | cont s2 =>
      rw [hstep] at h
      obtain ⟨m, hm, _⟩ := ih s2 r h
      exact ⟨c :: m, by simp [hm], by simp⟩

theorem substAux_zero (anch : Bool) (step : PStA → Char → StepRes) (s0 : PStA)
    (repl : List Char) (flag : Bool) (cs : List Char) :
    substAux anch step s0 repl 0 flag cs = cs := rfl

theorem substAux_cons (anch : Bool) (step : PStA → Char → StepRes) (s0 : PStA)
    (repl : List Char) (f : Nat) (flag : Bool) (c : Char) (cs : List Char) :
    substAux anch step s0 repl (f + 1) flag (c :: cs) =
      (if !anch || flag then
        match runM step s0 (c :: cs) with
        | some rest => repl ++ substAux anch step s0 repl f false rest
        | none => c :: substAux anch step s0 repl f (c = '\n') cs
       else c :: substAux anch step s0 repl f (c = '\n') cs) := rfl

theorem substAux_cons_some {anch : Bool} {step : PStA → Char → StepRes} {s0 : PStA}
    {repl : List Char} {f : Nat} {flag : Bool} {c : Char} {cs rest : List Char}
    (hfl : (!anch || flag) = true) (hrun : runM step s0 (c :: cs) = some rest) :
    substAux anch step s0 repl (f + 1) flag (c :: cs) =
      repl ++ substAux anch step s0 repl f false rest := by
  rw [substAux_cons, if_pos hfl, hrun]

theorem substAux_cons_skip {anch : Bool} {step : PStA → Char → StepRes} {s0 : PStA}
    {repl : List Char} {f : Nat} {flag : Bool} {c : Char} {cs : List Char}
    (h : (!anch || flag) = false ∨ runM step s0 (c :: cs) = none) :
    substAux anch step s0 repl (f + 1) flag (c :: cs) =
      c :: substAux anch step s0 repl f (c = '\n') cs := by
  rw [substAux_cons]
  rcases h with h | h
  · rw [if_neg (by simp [h])]
  · by_cases hfl : (!anch || flag) = true
    · rw [if_pos hfl, h]
    · rw [if_neg hfl]

theorem substAux_mono (anch : Bool) (step : PStA → Char → StepRes) (s0 : PStA)
    (repl : List Char) :
    ∀ (f1 f2 : Nat) (flag : Bool) (cs : List Char), cs.length ≤ f1 →
      cs.length ≤ f2 →
      substAux anch step s0 repl f1 flag cs = substAux anch step s0 repl f2 flag cs := by
  intro f1
  induction f1 with
  | zero =>
    intro f2 flag cs h1 _
    have : cs = [] := List.length_eq_zero.mp (by omega)
    subst this
    cases f2 <;> rfl
  | succ f ih =>
    intro f2 flag cs h1 h2
    cases cs with
    | nil => cases f2 <;> rfl
    | cons c t =>
      cases f2 with
      | zero => simp at h2
      | succ g =>
        by_cases hfl : (!anch || flag) = true
        · cases hrun : runM step s0 (c :: t) with
          | some rest =>
            rw [substAux_cons_some hfl hrun, substAux_cons_some hfl hrun]
            have hlen := runM_some_length step (c :: t) _ rest hrun
            simp only [List.length_cons] at hlen h1 h2
            rw [ih g false rest (by omega) (by omega)]
          | none =>
            rw [substAux_cons_skip (Or.inr hrun), substAux_cons_skip (Or.inr hrun)]
            simp only [List.length_cons] at h1 h2
            rw [ih g _ t (by omega) (by omega)]
        · have hfl2 : (!anch || flag) = false := by simpa using hfl
          rw [substAux_cons_skip (Or.inl hfl2), substAux_cons_skip (Or.inl hfl2)]
          simp only [List.length_cons] at h1 h2
          rw [ih g _ t (by omega) (by omega)]

theorem subst_nil (anch : Bool) (step : PStA → Char → StepRes) (s0 : PStA)
    (repl : List Char) (flag : Bool) :
    subst anch step s0 repl flag [] = [] := rfl

theorem subst_cons_match {anch : Bool} {step : PStA → Char → StepRes} {s0 : PStA}
    {repl : List Char} {flag : Bool} {c : Char} {cs rest : List Char}
    (hfl : (!anch || flag) = true) (hrun : runM step s0 (c :: cs) = some rest) :
    subst anch step s0 repl flag (c :: cs) =
      repl ++ subst anch step s0 repl false rest := by
  unfold subst
  simp only [List.length_cons]
  rw [substAux_cons_some hfl hrun]
  have hlen := runM_some_length step (c :: cs) _ rest hrun
  simp only [List.length_cons] at hlen
  rw [substAux_mono anch step s0 repl cs.length rest.length false rest
    (by omega) (by omega)]

theorem subst_cons_none {anch : Bool} {step : PStA → Char → StepRes} {s0 : PStA}
    {repl : List Char} {flag : Bool} {c : Char} {cs : List Char}
    (h : (!anch || flag) = false ∨ runM step s0 (c :: cs) = none) :
    subst anch step s0 repl flag (c :: cs) =
      c :: subst anch step s0 repl (c = '\n') cs := by
  unfold subst
  simp only [List.length_cons]
  rw [substAux_cons_skip h]

theorem subst_none_preserve {anch : Bool} {step : PStA → Char → StepRes} {s0 : PStA}
    {repl : List Char}
    (HX : ∀ (ws m rest W : List Char), runM step s0 (m ++ rest) = some rest →
      runM step s0 (ws ++ (m ++ rest)) = none →
      runM step s0 (ws ++ (repl ++ W)) = none) :
    ∀ (n : Nat) (cs ws : List Char) (flag : Bool), cs.length ≤ n →
      runM step s0 (ws ++ cs) = none →
      runM step s0 (ws ++ subst anch step s0 repl flag cs) = none := by
  intro n
  induction n with
  | zero =>
    intro cs ws flag h1 h2
    have : cs = [] := List.length_eq_zero.mp (by omega)
    subst this
    exact h2
  | succ k ih =>
    intro cs ws flag h1 h2
    cases cs with
    | nil => exact h2
    | cons c t =>
      by_cases hfl : (!anch || flag) = true
      · cases hrun : runM step s0 (c :: t) with
        | some rest =>
          rw [subst_cons_match hfl hrun]
          obtain ⟨m, hm, _⟩ := runM_decomp step (c :: t) _ rest hrun
          rw [hm] at hrun h2
          exact HX ws m rest (subst anch step s0 repl false rest) hrun h2
        | none =>
          rw [subst_cons_none (Or.inr hrun)]
          have hstep2 : ws ++ c :: t = (ws ++ [c]) ++ t := by simp
          have hstep3 : ws ++ c :: subst anch step s0 repl (c = '\n') t =
              (ws ++ [c]) ++ subst anch step s0 repl (c = '\n') t := by simp
          rw [hstep3]
          refine ih t (ws ++ [c]) _ ?_ ?_
          · simp only [List.length_cons] at h1; omega
          · rw [← hstep2]; exact h2
      · rw [subst_cons_none (Or.inl (by simpa using hfl))]
        have hstep2 : ws ++ c :: t = (ws ++ [c]) ++ t := by simp
        have hstep3 : ws ++ c :: subst anch step s0 repl (c = '\n') t =
            (ws ++ [c]) ++ subst anch step s0 repl (c = '\n') t := by simp
        rw [hstep3]
        refine ih t (ws ++ [c]) _ ?_ ?_
        · simp only [List.length_cons] at h1; omega
        · rw [← hstep2]; exact h2

theorem subst_idem {anch : Bool} {step : PStA → Char → StepRes} {s0 : PStA}
    {repl : List Char}
    (HR : ∀ (flag : Bool) (W : List Char), (!anch || flag) = true →
      subst anch step s0 repl flag (repl ++ W) =
        repl ++ subst anch step s0 repl false W)
    (HX : ∀ (ws m rest W : List Char), runM step s0 (m ++ rest) = some rest →
      runM step s0 (ws ++ (m ++ rest)) = none →
      runM step s0 (ws ++ (repl ++ W)) = none) :
    ∀ (n : Nat) (cs : List Char) (flag : Bool), cs.length ≤ n →
      subst anch step s0 repl flag (subst anch step s0 repl flag cs) =
        subst anch step s0 repl flag cs := by
  intro n
  induction n with
  | zero =>
    intro cs flag h1
    have : cs = [] := List.length_eq_zero.mp (by omega)
    subst this
    rfl
  | succ k ih =>
    intro cs flag h1
    cases cs with
    | nil => rfl
    | cons c t =>
      by_cases hfl : (!anch || flag) = true
      · cases hrun : runM step s0 (c :: t) with
        | some rest =>
          rw [subst_cons_match hfl hrun, HR flag _ hfl]
          have hlen := runM_some_length step (c :: t) _ rest hrun
          simp only [List.length_cons] at hlen h1
          rw [ih rest false (by omega)]
        | none =>
          rw [subst_cons_none (Or.inr hrun)]
          have hnone : runM step s0 ([c] ++ subst anch step s0 repl (c = '\n') t) =
              none := by
            refine subst_none_preserve HX k t [c] _ ?_ ?_
            · simp only [List.length_cons] at h1; omega
            · simpa using hrun
          simp only [List.singleton_append] at hnone
          rw [subst_cons_none (Or.inr hnone)]
          simp only [List.length_cons] at h1
          rw [ih t _ (by omega)]
      · have hfl2 : (!anch || flag) = false := by simpa using hfl
        rw [subst_cons_none (Or.inl hfl2)]
        rw [subst_cons_none (Or.inl hfl2)]
        simp only [List.length_cons] at h1
        rw [ih t _ (by omega)]

theorem cargo_lit_run : ∀ (L X : List Char), L ≠ [] →
    runM cargoStep (.lit L) (L ++ X) = runM cargoStep .eqs X := by
  intro L
  induction L with
  | nil => intro X h; exact absurd rfl h
  | cons p L ih =>
    intro X _
    cases L with
    | nil =>
      have e : ([p] ++ X) = p :: X := rfl
      rw [e, runM_cons]
      simp [cargoStep]
    | cons q r =>
      have e : ((p :: q :: r) ++ X) = p :: ((q :: r) ++ X) := rfl
      rw [e, runM_cons]
      simp only [cargoStep, if_pos rfl]
      exact ih X (by simp)

theorem cargo_eqs_run : ∀ (w X : List Char), (∀ c ∈ w, pySpace c = true) →
    runM cargoStep .eqs (w ++ '=' :: X) = runM cargoStep .qs X := by
  intro w
  induction w with
  | nil => intro X _; rfl
  | cons s w ih =>
    intro X h
    have hs : pySpace s = true := h s (by simp)
    have e : ((s :: w) ++ '=' :: X) = s :: (w ++ '=' :: X) := rfl
    rw [e, runM_cons]
    simp only [cargoStep, hs, if_pos rfl]
    exact ih X (fun c hc => h c (by simp [hc]))

theorem cargo_qs_run : ∀ (w X : List Char), (∀ c ∈ w, pySpace c = true) →
    runM cargoStep .qs (w ++ dq :: X) = runM cargoStep .body X := by
  intro w
  induction w with
  | nil => intro X _; rfl
  | cons s w ih =>
    intro X h
    have hs : pySpace s = true := h s (by simp)
    have e : ((s :: w) ++ dq :: X) = s :: (w ++ dq :: X) := rfl
    rw [e, runM_cons]
    simp only [cargoStep, hs, if_pos rfl]
    exact ih X (fun c hc => h c (by simp [hc]))

theorem cargo_body_run : ∀ (q X : List Char), (∀ c ∈ q, c ≠ dq) →
    runM cargoStep .body (q ++ dq :: X) = some X := by
  intro q
  induction q with
  | nil => intro X _; rfl
  | cons c q ih =>
    intro X h
    have hc : c ≠ dq := h c (by simp)
    have e : ((c :: q) ++ dq :: X) = c :: (q ++ dq :: X) := rfl
    rw [e, runM_cons]
    simp only [cargoStep, if_neg hc]
    exact ih X (fun x hx => h x (by simp [hx]))

theorem cargo_body_find : ∀ (xs ys : List Char), dq ∈ xs →
    ∃ r, runM cargoStep .body (xs ++ ys) = some r := by
  intro xs
  induction xs with
  | nil => intro ys h; simp at h
  | cons c t ih =>
    intro ys h
    have e : ((c :: t) ++ ys) = c :: (t ++ ys) := rfl
    rw [e, runM_cons]
    by_cases hc : c = dq
    · subst hc
      simp only [cargoStep, if_pos rfl]
      exact ⟨t ++ ys, rfl⟩
    · simp only [cargoStep, if_neg hc]
      refine ih ys ?_
      rcases List.mem_cons.mp h with h | h
      · exact absurd h.symm hc
      · exact h

theorem cargo_run_repl {v : List Char} (hv : ∀ c ∈ v, versionChar c) :
    ∀ W, runM cargoStep (.lit cargoLit) (cargoRepl v ++ W) = some W := by
  intro W
  have e : cargoRepl v ++ W =
      cargoLit ++ (' ' :: '=' :: ' ' :: dq :: (v ++ dq :: W)) := by
    simp [cargoRepl, cargoLit]
  rw [e, cargo_lit_run _ _ (by simp [cargoLit])]
  have e2 : (' ' :: '=' :: ' ' :: dq :: (v ++ dq :: W)) =
      [' '] ++ '=' :: (' ' :: dq :: (v ++ dq :: W)) := rfl
  rw [e2, cargo_eqs_run _ _ (by intro c hc; simp at hc; rw [hc]; rfl)]
  have e3 : (' ' :: dq :: (v ++ dq :: W)) = [' '] ++ dq :: (v ++ dq :: W) := rfl
  rw [e3, cargo_qs_run _ _ (by intro c hc; simp at hc; rw [hc]; rfl)]
  exact cargo_body_run v W (fun c hc => versionChar_ne_dq (hv c hc))

theorem cargo_lit_decomp : ∀ (L cs rest : List Char), L ≠ [] →
    runM cargoStep (.lit L) cs = some rest →
    ∃ cs1, cs = L ++ cs1 ∧ runM cargoStep .eqs cs1 = some rest := by
  intro L
  induction L with
  | nil => intro cs rest h; exact absurd rfl h
  | cons p L ih =>
    intro cs rest _ h
    cases cs with
    | nil => cases h
    | cons c t =>
      rw [runM_cons] at h
      cases L with
      | nil =>
        by_cases hc : c = p
        · subst hc
          simp only [cargoStep, if_pos rfl] at h
          exact ⟨t, rfl, h⟩
        · simp only [cargoStep, if_neg hc] at h
          cases h
      | cons q r =>
        by_cases hc : c = p
        · subst hc
          simp only [cargoStep, if_pos rfl] at h
          obtain ⟨cs1, hcs1, hrun⟩ := ih t rest (by simp) h
          exact ⟨cs1, by simp [hcs1], hrun⟩
        · simp only [cargoStep, if_neg hc] at h
          cases h

theorem cargo_eqs_decomp : ∀ (cs rest : List Char),
    runM cargoStep .eqs cs = some rest →
    ∃ w cs1, cs = w ++ '=' :: cs1 ∧ (∀ c ∈ w, pySpace c = true) ∧
      runM cargoStep .qs cs1 = some rest := by
  intro cs
  induction cs with
  | nil => intro rest h; cases h
  | cons c t ih =>
    intro rest h
    rw [runM_cons] at h
    by_cases hsp : pySpace c = true
    · simp only [cargoStep, hsp, if_pos rfl] at h
      obtain ⟨w, cs1, hcs, hw, hrun⟩ := ih rest h
      exact ⟨c :: w, cs1, by simp [hcs], by
        intro x hx
        rcases List.mem_cons.mp hx with hx | hx
        · rw [hx]; exact hsp
        · exact hw x hx, hrun⟩
    · by_cases heq : c = '='
      · subst heq
        simp only [cargoStep, if_neg hsp, if_pos rfl] at h
        exact ⟨[], t, rfl, by simp, h⟩
      · simp only [cargoStep, if_neg hsp, if_neg heq] at h
        cases h

theorem cargo_qs_decomp : ∀ (cs rest : List Char),
    runM cargoStep .qs cs = some rest →
    ∃ w cs1, cs = w ++ dq :: cs1 ∧ (∀ c ∈ w, pySpace c = true) ∧
      runM cargoStep .body cs1 = some rest := by
  intro cs
  induction cs with
  | nil => intro rest h; cases h
  | cons c t ih =>
    intro rest h
    rw [runM_cons] at h
    by_cases hsp : pySpace c = true
    · simp only [cargoStep, hsp, if_pos rfl] at h
      obtain ⟨w, cs1, hcs, hw, hrun⟩ := ih rest h
      exact ⟨c :: w, cs1, by simp [hcs], by
        intro x hx
        rcases List.mem_cons.mp hx with hx | hx
        · rw [hx]; exact hsp
        · exact hw x hx, hrun⟩
    · by_cases heq : c = dq
      · subst heq
        simp only [cargoStep, if_neg hsp, if_pos rfl] at h
        exact ⟨[], t, rfl, by simp, h⟩
      · simp only [cargoStep, if_neg hsp, if_neg heq] at h
        cases h

theorem cargo_body_decomp : ∀ (cs rest : List Char),
    runM cargoStep .body cs = some rest →
    ∃ q, cs = q ++ dq :: rest ∧ (∀ c ∈ q, c ≠ dq) := by
  intro cs
  induction cs with
  | nil => intro rest h; cases h
  | cons c t ih =>
    intro rest h
    rw [runM_cons] at h
    by_cases hc : c = dq
    · subst hc
      simp only [cargoStep, if_pos rfl] at h
      exact ⟨[], by simp [Option.some.inj h], by simp⟩
    · simp only [cargoStep, if_neg hc] at h
      obtain ⟨q, hq, hnq⟩ := ih rest h
      exact ⟨c :: q, by simp [hq], by
        intro x hx
        rcases List.mem_cons.mp hx with hx | hx
        · rw [hx]; exact hc
        · exact hnq x hx⟩

theorem cargo_match_has_dq : ∀ (m rest : List Char),
    runM cargoStep (.lit cargoLit) (m ++ rest) = some rest → dq ∈ m := by
  intro m rest h
  obtain ⟨cs1, hcs1, h1⟩ := cargo_lit_decomp cargoLit (m ++ rest) rest
    (by simp [cargoLit]) h
  obtain ⟨w1, cs2, hcs2, _, h2⟩ := cargo_eqs_decomp cs1 rest h1
  obtain ⟨w2, cs3, hcs3, _, h3⟩ := cargo_qs_decomp cs2 rest h2
  obtain ⟨q, hq, _⟩ := cargo_body_decomp cs3 rest h3
  have hfull : m ++ rest =
      (cargoLit ++ w1 ++ '=' :: w2 ++ dq :: q ++ [dq]) ++ rest := by
    rw [hcs1, hcs2, hcs3, hq]
    simp
  have hm : m = cargoLit ++ w1 ++ '=' :: w2 ++ dq :: q ++ [dq] :=
    List.append_cancel_right hfull
  rw [hm]
  simp

theorem cargo_good_step {s : PStA} {c : Char} {s3 : PStA}
    (hg : (∃ rem, s = .lit rem ∧ rem ≠ [] ∧ rem.length < cargoLit.length ∧
        rem.IsSuffix cargoLit) ∨ s = .eqs ∨ s = .qs ∨ s = .body)
    (hs : cargoStep s c = .cont s3) :
    (∃ rem, s3 = .lit rem ∧ rem ≠ [] ∧ rem.length < cargoLit.length ∧
        rem.IsSuffix cargoLit) ∨ s3 = .eqs ∨ s3 = .qs ∨ s3 = .body := by
  rcases hg with ⟨rem, rfl, hne, hlen, hsuf⟩ | rfl | rfl | rfl
  · cases rem with
    | nil => exact absurd rfl hne
    | cons p r =>
      cases r with
      | nil =>
        by_cases hc : c = p
        · simp only [cargoStep, if_pos hc] at hs
          rw [← StepRes.cont.inj hs]
          exact Or.inr (Or.inl rfl)
        · simp only [cargoStep, if_neg hc] at hs
          cases hs
      | cons q r2 =>
        by_cases hc : c = p
        · simp only [cargoStep, if_pos hc] at hs
          rw [← StepRes.cont.inj hs]
          refine Or.inl ⟨q :: r2, rfl, by simp, ?_, ?_⟩
          · simp only [List.length_cons] at hlen ⊢; omega
          · exact List.IsSuffix.trans ⟨[p], rfl⟩ hsuf
        · simp only [cargoStep, if_neg hc] at hs
          cases hs
  · by_cases hsp : pySpace c = true
    · simp only [cargoStep, if_pos hsp] at hs
      rw [← StepRes.cont.inj hs]
      exact Or.inr (Or.inl rfl)
    · by_cases heq : c = '='
      · simp only [cargoStep, if_neg hsp, if_pos heq] at hs
        rw [← StepRes.cont.inj hs]
        exact Or.inr (Or.inr (Or.inl rfl))
      · simp only [cargoStep, if_neg hsp, if_neg heq] at hs
        cases hs
  · by_cases hsp : pySpace c = true
    · simp only [cargoStep, if_pos hsp] at hs
      rw [← StepRes.cont.inj hs]
      exact Or.inr (Or.inr (Or.inl rfl))
    · by_cases heq : c = dq
      · simp only [cargoStep, if_neg hsp, if_pos heq] at hs
        rw [← StepRes.cont.inj hs]
        exact Or.inr (Or.inr (Or.inr rfl))
      · simp only [cargoStep, if_neg hsp, if_neg heq] at hs
        cases hs
  · by_cases hc : c = dq
    · simp only [cargoStep, if_pos hc] at hs
      cases hs
    · simp only [cargoStep, if_neg hc] at hs
      rw [← StepRes.cont.inj hs]
      exact Or.inr (Or.inr (Or.inr rfl))

theorem cargo_good_consume : ∀ (ws : List Char) (s s2 : PStA),
    ((∃ rem, s = .lit rem ∧ rem ≠ [] ∧ rem.length < cargoLit.length ∧
        rem.IsSuffix cargoLit) ∨ s = .eqs ∨ s = .qs ∨ s = .body) →
    consume cargoStep s ws = .more s2 →
    (∃ rem, s2 = .lit rem ∧ rem ≠ [] ∧ rem.length < cargoLit.length ∧
        rem.IsSuffix cargoLit) ∨ s2 = .eqs ∨ s2 = .qs ∨ s2 = .body := by
  intro ws
  induction ws with
  | nil =>
    intro s s2 hg h
    simp only [consume] at h
    rw [← CRes.more.inj h]
    exact hg
  | cons c ws ih =>
    intro s s2 hg h
    rw [consume_cons] at h
    cases hstep : cargoStep s c with
    | fail => rw [hstep] at h; cases h
    | done => rw [hstep] at h; cases h
    | cont s3 =>
      rw [hstep] at h
      exact ih s3 s2 (cargo_good_step hg hstep) h

theorem cargo_reach : ∀ (ws : List Char) (s2 : PStA), ws ≠ [] →
    consume cargoStep (.lit cargoLit) ws = .more s2 →
    (∃ rem, s2 = .lit rem ∧ rem ≠ [] ∧ rem.length < cargoLit.length ∧
        rem.IsSuffix cargoLit) ∨ s2 = .eqs ∨ s2 = .qs ∨ s2 = .body := by
  intro ws s2 hne h
  cases ws with
  | nil => exact absurd rfl hne
  | cons c ws =>
    rw [consume_cons] at h
    by_cases hc : c = 'v'
    · subst hc
      have hstep : cargoStep (.lit cargoLit) 'v' =
          .cont (.lit ['e', 'r', 's', 'i', 'o', 'n']) := rfl
      rw [hstep] at h
      refine cargo_good_consume ws _ s2 ?_ h
      exact Or.inl ⟨['e', 'r', 's', 'i', 'o', 'n'], rfl, by simp, by decide, by decide⟩
    · have hstep : cargoStep (.lit cargoLit) c = .fail := by
        simp only [cargoLit, cargoStep, if_neg hc]
      rw [hstep] at h
      cases h

theorem runM_lit_head_ne {p c : Char} (ps X : List Char) (h : c ≠ p) :
    runM cargoStep (.lit (p :: ps)) (c :: X) = none := by
  rw [runM_cons]
  cases ps with
  | nil => simp only [cargoStep, if_neg h]
  | cons q r => simp only [cargoStep, if_neg h]

theorem cargo_repl_cons (v : List Char) (W : List Char) :
    cargoRepl v ++ W =
      'v' :: 'e' :: 'r' :: 's' :: 'i' :: 'o' :: 'n' :: ' ' :: '=' :: ' ' ::
        dq :: (v ++ dq :: W) := by
  simp [cargoRepl]

theorem cargo_kill_lit {rem : List Char} (hne : rem ≠ [])
    (hlen : rem.length < cargoLit.length) (hsuf : rem.IsSuffix cargoLit)
    (v W : List Char) :
    runM cargoStep (.lit rem) (cargoRepl v ++ W) = none := by
  have hmem : rem ∈ cargoLit.tails := (List.mem_tails rem cargoLit).mpr hsuf
  have htails : cargoLit.tails =
      [cargoLit, ['e', 'r', 's', 'i', 'o', 'n'], ['r', 's', 'i', 'o', 'n'],
        ['s', 'i', 'o', 'n'], ['i', 'o', 'n'], ['o', 'n'], ['n'], []] := by decide
  rw [htails] at hmem
  rw [cargo_repl_cons]
  simp only [List.mem_cons, List.not_mem_nil, or_false] at hmem
  rcases hmem with rfl | rfl | rfl | rfl | rfl | rfl | rfl | rfl
  · exact absurd hlen (by simp)
  · exact runM_lit_head_ne _ _ (by decide)
  · exact runM_lit_head_ne _ _ (by decide)
  · exact runM_lit_head_ne _ _ (by decide)
  · exact runM_lit_head_ne _ _ (by decide)
  · exact runM_lit_head_ne _ _ (by decide)
  · exact runM_lit_head_ne _ _ (by decide)
  · exact absurd rfl hne

theorem cargo_kill_eqs (v W : List Char) :
    runM cargoStep .eqs (cargoRepl v ++ W) = none := by
  rw [cargo_repl_cons, runM_cons]
  rfl

theorem cargo_kill_qs (v W : List Char) :
    runM cargoStep .qs (cargoRepl v ++ W) = none := by
  rw [cargo_repl_cons, runM_cons]
  rfl

theorem cargo_HX (v : List Char) :
    ∀ (ws m rest W : List Char),
      runM cargoStep (.lit cargoLit) (m ++ rest) = some rest →
      runM cargoStep (.lit cargoLit) (ws ++ (m ++ rest)) = none →
      runM cargoStep (.lit cargoLit) (ws ++ (cargoRepl v ++ W)) = none := by
  intro ws m rest W hm hnone
  rw [consume_spec] at hnone ⊢
  cases hcons : consume cargoStep (.lit cargoLit) ws with
  | fail => rfl
  | done r =>
    have h2 : some (r ++ (m ++ rest)) = none := by
      rw [hcons] at hnone
      exact hnone
    cases h2
  | more s2 =>
    have h2 : runM cargoStep s2 (m ++ rest) = none := by
      rw [hcons] at hnone
      exact hnone
    show runM cargoStep s2 (cargoRepl v ++ W) = none
    by_cases hws : ws = []
    · subst hws
      have h4 : CRes.more (PStA.lit cargoLit) = CRes.more s2 := hcons
      rw [← CRes.more.inj h4, hm] at h2
      cases h2
    · rcases cargo_reach ws s2 hws hcons with ⟨rem, rfl, hne, hlen, hsuf⟩ | rfl | rfl | rfl
      · exact cargo_kill_lit hne hlen hsuf v W
      · exact cargo_kill_eqs v W
      · exact cargo_kill_qs v W
      · obtain ⟨r, hr⟩ := cargo_body_find m rest (cargo_match_has_dq m rest hm)
        rw [hr] at h2
        cases h2

theorem cargo_HR {v : List Char} (hv : ∀ c ∈ v, versionChar c) :
    ∀ (flag : Bool) (W : List Char), (!true || flag) = true →
      subst true cargoStep (.lit cargoLit) (cargoRepl v) flag (cargoRepl v ++ W) =
        cargoRepl v ++ subst true cargoStep (.lit cargoLit) (cargoRepl v) false W := by
  intro flag W hfl
  have hrun := cargo_run_repl hv W
  rw [cargo_repl_cons] at hrun ⊢
  rw [subst_cons_match hfl hrun]

theorem subCargo_idem {v : List Char} (hv : isValidVersionL v = true)
    (cs : List Char) : subCargo v (subCargo v cs) = subCargo v cs := by
  unfold subCargo
  exact subst_idem (cargo_HR (isValidVersionL_chars hv)) (cargo_HX v)
    cs.length cs true le_rfl

theorem front_lit_run : ∀ (L X : List Char), L ≠ [] →
    runM frontStep (.lit L) (L ++ X) = runM frontStep .qs X := by
  intro L
  induction L with
  | nil => intro X h; exact absurd rfl h
  | cons p L ih =>
    intro X _
    cases L with
    | nil =>
      have e : ([p] ++ X) = p :: X := rfl
      rw [e, runM_cons]
      simp [frontStep]
    | cons q r =>
      have e : ((p :: q :: r) ++ X) = p :: ((q :: r) ++ X) := rfl
      rw [e, runM_cons]
      simp only [frontStep, if_pos rfl]
      exact ih X (by simp)

theorem front_qs_run : ∀ (w X : List Char), (∀ c ∈ w, pySpace c = true) →
    runM frontStep .qs (w ++ dq :: X) = runM frontStep .body X := by
  intro w
  induction w with
  | nil => intro X _; rfl
  | cons s w ih =>
    intro X h
    have hs : pySpace s = true := h s (by simp)
    have e : ((s :: w) ++ dq :: X) = s :: (w ++ dq :: X) := rfl
    rw [e, runM_cons]
    simp only [frontStep, hs, if_pos rfl]
    exact ih X (fun c hc => h c (by simp [hc]))

theorem front_body_run : ∀ (q X : List Char), (∀ c ∈ q, c ≠ dq) →
    runM frontStep .body (q ++ dq :: X) = some X := by
  intro q
  induction q with
  | nil => intro X _; rfl
  | cons c q ih =>
    intro X h
    have hc : c ≠ dq := h c (by simp)
    have e : ((c :: q) ++ dq :: X) = c :: (q ++ dq :: X) := rfl
    rw [e, runM_cons]
    simp only [frontStep, if_neg hc]
    exact ih X (fun x hx => h x (by simp [hx]))

theorem front_body_find : ∀ (xs ys : List Char), dq ∈ xs →
    ∃ r, runM frontStep .body (xs ++ ys) = some r := by
  intro xs
  induction xs with
  | nil => intro ys h; simp at h
  | cons c t ih =>
    intro ys h
    have e : ((c :: t) ++ ys) = c :: (t ++ ys) := rfl
    rw [e, runM_cons]
    by_cases hc : c = dq
    · subst hc
      simp only [frontStep, if_pos rfl]
      exact ⟨t ++ ys, rfl⟩
    · simp only [frontStep, if_neg hc]
      refine ih ys ?_
      rcases List.mem_cons.mp h with h | h
      · exact absurd h.symm hc
      · exact h

theorem front_repl_cons (v : List Char) (W : List Char) :
    frontRepl v ++ W =
      dq :: 'v' :: 'e' :: 'r' :: 's' :: 'i' :: 'o' :: 'n' :: dq :: ':' :: ' ' ::
        dq :: (v ++ dq :: W) := by
  simp [frontRepl]

theorem front_run_repl {v : List Char} (hv : ∀ c ∈ v, versionChar c) :
    ∀ W, runM frontStep (.lit frontLit) (frontRepl v ++ W) = some W := by
  intro W
  have e : frontRepl v ++ W = frontLit ++ (' ' :: dq :: (v ++ dq :: W)) := by
    simp [frontRepl, frontLit]
  rw [e, front_lit_run _ _ (by simp [frontLit])]
  have e2 : (' ' :: dq :: (v ++ dq :: W)) = [' '] ++ dq :: (v ++ dq :: W) := rfl
  rw [e2, front_qs_run _ _ (by intro c hc; simp at hc; rw [hc]; rfl)]
  exact front_body_run v W (fun c hc => versionChar_ne_dq (hv c hc))

theorem front_lit_decomp : ∀ (L cs rest : List Char), L ≠ [] →
    runM frontStep (.lit L) cs = some rest →
    ∃ cs1, cs = L ++ cs1 ∧ runM frontStep .qs cs1 = some rest := by
  intro L
  induction L with
  | nil => intro cs rest h; exact absurd rfl h
  | cons p L ih =>
    intro cs rest _ h
    cases cs with
    | nil => cases h
    | cons c t =>
      rw [runM_cons] at h
      cases L with
      | nil =>
        by_cases hc : c = p
        · subst hc
          simp only [frontStep, if_pos rfl] at h
          exact ⟨t, rfl, h⟩
        · simp only [frontStep, if_neg hc] at h
          cases h
      | cons q r =>
        by_cases hc : c = p
        · subst hc
          simp only [frontStep, if_pos rfl] at h
          obtain ⟨cs1, hcs1, hrun⟩ := ih t rest (by simp) h
          exact ⟨cs1, by simp [hcs1], hrun⟩
        · simp only [frontStep, if_neg hc] at h
          cases h

theorem front_qs_decomp : ∀ (cs rest : List Char),
    runM frontStep .qs cs = some rest →
    ∃ w cs1, cs = w ++ dq :: cs1 ∧ (∀ c ∈ w, pySpace c = true) ∧
      runM frontStep .body cs1 = some rest := by
  intro cs
  induction cs with
  | nil => intro rest h; cases h
  | cons c t ih =>
    intro rest h
    rw [runM_cons] at h
    by_cases hsp : pySpace c = true
    · simp only [frontStep, hsp, if_pos rfl] at h
      obtain ⟨w, cs1, hcs, hw, hrun⟩ := ih rest h
      exact ⟨c :: w, cs1, by simp [hcs], by
        intro x hx
        rcases List.mem_cons.mp hx with hx | hx
        · rw [hx]; exact hsp
        · exact hw x hx, hrun⟩
    · by_cases heq : c = dq
      · subst heq
        simp only [frontStep, if_neg hsp, if_pos rfl] at h
        exact ⟨[], t, rfl, by simp, h⟩
      · simp only [frontStep, if_neg hsp, if_neg heq] at h
        cases h

theorem front_body_decomp : ∀ (cs rest : List Char),
    runM frontStep .body cs = some rest →
    ∃ q, cs = q ++ dq :: rest ∧ (∀ c ∈ q, c ≠ dq) := by
  intro cs
  induction cs with
  | nil => intro rest h; cases h
  | cons c t ih =>
    intro rest h
    rw [runM_cons] at h
    by_cases hc : c = dq
    · subst hc
      simp only [frontStep, if_pos rfl] at h
      exact ⟨[], by simp [Option.some.inj h], by simp⟩
    · simp only [frontStep, if_neg hc] at h
      obtain ⟨q, hq, hnq⟩ := ih rest h
      exact ⟨c :: q, by simp [hq], by
        intro x hx
        rcases List.mem_cons.mp hx with hx | hx
        · rw [hx]; exact hc
        · exact hnq x hx⟩

theorem front_match_shape : ∀ (m rest : List Char),
    runM frontStep (.lit frontLit) (m ++ rest) = some rest →
    ∃ m1, m = dq :: m1 ∧ dq ∈ m1 := by
  intro m rest h
  obtain ⟨cs1, hcs1, h1⟩ := front_lit_decomp frontLit (m ++ rest) rest
    (by simp [frontLit]) h
  obtain ⟨w, cs2, hcs2, _, h2⟩ := front_qs_decomp cs1 rest h1
  obtain ⟨q, hq, _⟩ := front_body_decomp cs2 rest h2
  have hfull : m ++ rest =
      (frontLit ++ w ++ dq :: q ++ [dq]) ++ rest := by
    rw [hcs1, hcs2, hq]
    simp
  have hm : m = frontLit ++ w ++ dq :: q ++ [dq] :=
    List.append_cancel_right hfull
  refine ⟨['v', 'e', 'r', 's', 'i', 'o', 'n', dq, ':'] ++ w ++ dq :: q ++ [dq],
    ?_, ?_⟩
  · rw [hm]
    simp [frontLit]
  · simp

theorem front_good_step {s : PStA} {c : Char} {s3 : PStA}
    (hg : (∃ rem, s = .lit rem ∧ rem ≠ [] ∧ rem.length < frontLit.length ∧
        rem.IsSuffix frontLit) ∨ s = .qs ∨ s = .body)
    (hs : frontStep s c = .cont s3) :
    (∃ rem, s3 = .lit rem ∧ rem ≠ [] ∧ rem.length < frontLit.length ∧
        rem.IsSuffix frontLit) ∨ s3 = .qs ∨ s3 = .body := by
  rcases hg with ⟨rem, rfl, hne, hlen, hsuf⟩ | rfl | rfl
  · cases rem with
    | nil => exact absurd rfl hne
    | cons p r =>
      cases r with
      | nil =>
        by_cases hc : c = p
        · simp only [frontStep, if_pos hc] at hs
          rw [← StepRes.cont.inj hs]
          exact Or.inr (Or.inl rfl)
        · simp only [frontStep, if_neg hc] at hs
          cases hs
      | cons q r2 =>
        by_cases hc : c = p
        · simp only [frontStep, if_pos hc] at hs
          rw [← StepRes.cont.inj hs]
          refine Or.inl ⟨q :: r2, rfl, by simp, ?_, ?_⟩
          · simp only [List.length_cons] at hlen ⊢; omega
          · exact List.IsSuffix.trans ⟨[p], rfl⟩ hsuf
        · simp only [frontStep, if_neg hc] at hs
          cases hs
  · by_cases hsp : pySpace c = true
    · simp only [frontStep, if_pos hsp] at hs
      rw [← StepRes.cont.inj hs]
      exact Or.inr (Or.inl rfl)
    · by_cases heq : c = dq
      · simp only [frontStep, if_neg hsp, if_pos heq] at hs
        rw [← StepRes.cont.inj hs]
        exact Or.inr (Or.inr rfl)
      · simp only [frontStep, if_neg hsp, if_neg heq] at hs
        cases hs
  · by_cases hc : c = dq
    · simp only [frontStep, if_pos hc] at hs
      cases hs
    · simp only [frontStep, if_neg hc] at hs
      rw [← StepRes.cont.inj hs]
      exact Or.inr (Or.inr rfl)

theorem front_good_consume : ∀ (ws : List Char) (s s2 : PStA),
    ((∃ rem, s = .lit rem ∧ rem ≠ [] ∧ rem.length < frontLit.length ∧
        rem.IsSuffix frontLit) ∨ s = .qs ∨ s = .body) →
    consume frontStep s ws = .more s2 →
    (∃ rem, s2 = .lit rem ∧ rem ≠ [] ∧ rem.length < frontLit.length ∧
        rem.IsSuffix frontLit) ∨ s2 = .qs ∨ s2 = .body := by
  intro ws
  induction ws with
  | nil =>
    intro s s2 hg h
    simp only [consume] at h
    rw [← CRes.more.inj h]
    exact hg
  | cons c ws ih =>
    intro s s2 hg h
    rw [consume_cons] at h
    cases hstep : frontStep s c with
    | fail => rw [hstep] at h; cases h
    | done => rw [hstep] at h; cases h
    | cont s3 =>
      rw [hstep] at h
      exact ih s3 s2 (front_good_step hg hstep) h

theorem front_reach : ∀ (ws : List Char) (s2 : PStA), ws ≠ [] →
    consume frontStep (.lit frontLit) ws = .more s2 →
    (∃ rem, s2 = .lit rem ∧ rem ≠ [] ∧ rem.length < frontLit.length ∧
        rem.IsSuffix frontLit) ∨ s2 = .qs ∨ s2 = .body := by
  intro ws s2 hne h
  cases ws with
  | nil => exact absurd rfl hne
  | cons c ws =>
    rw [consume_cons] at h
    by_cases hc : c = dq
    · subst hc
      have hstep : frontStep (.lit frontLit) dq =
          .cont (.lit ['v', 'e', 'r', 's', 'i', 'o', 'n', dq, ':']) := rfl
      rw [hstep] at h
      refine front_good_consume ws _ s2 ?_ h
      exact Or.inl ⟨['v', 'e', 'r', 's', 'i', 'o', 'n', dq, ':'], rfl, by simp,
        by decide, by decide⟩
    · have hstep : frontStep (.lit frontLit) c = .fail := by
        simp only [frontLit, frontStep, if_neg hc]
      rw [hstep] at h
      cases h

theorem front_lit_head_ne {p c : Char} (ps X : List Char) (h : c ≠ p) :
    runM frontStep (.lit (p :: ps)) (c :: X) = none := by
  rw [runM_cons]
  cases ps with
  | nil => simp only [frontStep, if_neg h]
  | cons q r => simp only [frontStep, if_neg h]

theorem front_kill_lit {rem : List Char} (hne : rem ≠ [])
    (hlen : rem.length < frontLit.length) (hsuf : rem.IsSuffix frontLit)
    (v W : List Char) :
    runM frontStep (.lit rem) (frontRepl v ++ W) = none := by
  have hmem : rem ∈ frontLit.tails := (List.mem_tails rem frontLit).mpr hsuf
  have htails : frontLit.tails =
      [frontLit, ['v', 'e', 'r', 's', 'i', 'o', 'n', dq, ':'],
        ['e', 'r', 's', 'i', 'o', 'n', dq, ':'], ['r', 's', 'i', 'o', 'n', dq, ':'],
        ['s', 'i', 'o', 'n', dq, ':'], ['i', 'o', 'n', dq, ':'], ['o', 'n', dq, ':'],
        ['n', dq, ':'], [dq, ':'], [':'], []] := by decide
  rw [htails] at hmem
  rw [front_repl_cons]
  simp only [List.mem_cons, List.not_mem_nil, or_false] at hmem
  rcases hmem with rfl | rfl | rfl | rfl | rfl | rfl | rfl | rfl | rfl | rfl | rfl
  · exact absurd hlen (by simp)
  · exact front_lit_head_ne _ _ (by decide)
  · exact front_lit_head_ne _ _ (by decide)
  · exact front_lit_head_ne _ _ (by decide)
  · exact front_lit_head_ne _ _ (by decide)
  · exact front_lit_head_ne _ _ (by decide)
  · exact front_lit_head_ne _ _ (by decide)
  · exact front_lit_head_ne _ _ (by decide)
  · rw [runM_cons]
    simp only [frontStep, if_pos rfl]
    exact front_lit_head_ne _ _ (by decide)
  · exact front_lit_head_ne _ _ (by decide)
  · exact absurd rfl hne

theorem front_HX (v : List Char) :
    ∀ (ws m rest W : List Char),
      runM frontStep (.lit frontLit) (m ++ rest) = some rest →
      runM frontStep (.lit frontLit) (ws ++ (m ++ rest)) = none →
      runM frontStep (.lit frontLit) (ws ++ (frontRepl v ++ W)) = none := by
  intro ws m rest W hm hnone
  rw [consume_spec] at hnone ⊢
  cases hcons : consume frontStep (.lit frontLit) ws with
  | fail => rfl
  | done r =>
    have h2 : some (r ++ (m ++ rest)) = none := by
      rw [hcons] at hnone
      exact hnone
    cases h2
  | more s2 =>
    have h2 : runM frontStep s2 (m ++ rest) = none := by
      rw [hcons] at hnone
      exact hnone
    show runM frontStep s2 (frontRepl v ++ W) = none
    by_cases hws : ws = []
    · subst hws
      have h4 : CRes.more (PStA.lit frontLit) = CRes.more s2 := hcons
      rw [← CRes.more.inj h4, hm] at h2
      cases h2
    · obtain ⟨m1, hm1, hdqm1⟩ := front_match_shape m rest hm
      rcases front_reach ws s2 hws hcons with ⟨rem, rfl, hne, hlen, hsuf⟩ | rfl | rfl
      · exact front_kill_lit hne hlen hsuf v W
      · have e : m ++ rest = dq :: (m1 ++ rest) := by rw [hm1]; rfl
        rw [e] at h2
        have h3 : runM frontStep PStA.body (m1 ++ rest) = none := h2
        obtain ⟨r, hr⟩ := front_body_find m1 rest hdqm1
        rw [hr] at h3
        cases h3
      · have e : m ++ rest = (dq :: m1) ++ rest := by rw [hm1]
        rw [e] at h2
        obtain ⟨r, hr⟩ := front_body_find (dq :: m1) rest (by simp)
        rw [hr] at h2
        cases h2

theorem front_HR {v : List Char} (hv : ∀ c ∈ v, versionChar c) :
    ∀ (flag : Bool) (W : List Char), (!false || flag) = true →
      subst false frontStep (.lit frontLit) (frontRepl v) flag (frontRepl v ++ W) =
        frontRepl v ++ subst false frontStep (.lit frontLit) (frontRepl v) false W := by
  intro flag W hfl
  have hrun := front_run_repl hv W
  rw [front_repl_cons] at hrun ⊢
  rw [subst_cons_match hfl hrun]

theorem subFront_idem {v : List Char} (hv : isValidVersionL v = true)
    (cs : List Char) : subFront v (subFront v cs) = subFront v cs := by
  unfold subFront
  exact subst_idem (front_HR (isValidVersionL_chars hv)) (front_HX v)
    cs.length cs true le_rfl

theorem subst_flag_irrel (step : PStA → Char → StepRes) (s0 : PStA)
    (repl : List Char) (flag1 flag2 : Bool) (cs : List Char) :
    subst false step s0 repl flag1 cs = subst false step s0 repl flag2 cs := by
  cases cs with
  | nil => rfl
  | cons c t =>
    cases hrun : runM step s0 (c :: t) with
    | some rest =>
      rw [subst_cons_match (by simp) hrun, subst_cons_match (by simp) hrun]
    | none =>
      rw [subst_cons_none (Or.inr hrun), subst_cons_none (Or.inr hrun)]

theorem subst_prefix_none (step : PStA → Char → StepRes) (s0 : PStA)
    (repl : List Char) :
    ∀ (xs ys : List Char) (flag : Bool),
      (∀ zs, zs ≠ [] → zs.IsSuffix xs → runM step s0 (zs ++ ys) = none) →
      subst false step s0 repl flag (xs ++ ys) =
        xs ++ subst false step s0 repl flag ys := by
  intro xs
  induction xs with
  | nil => intro ys flag _; rfl
  | cons c t ih =>
    intro ys flag h
    have hnone : runM step s0 (c :: (t ++ ys)) = none := by
      have := h (c :: t) (by simp) (List.suffix_refl _)
      simpa using this
    have e : ((c :: t) ++ ys) = c :: (t ++ ys) := rfl
    rw [e, subst_cons_none (Or.inr hnone),
      ih ys _ (fun zs hne hsuf => h zs hne (hsuf.trans ⟨[c], rfl⟩)),
      subst_flag_irrel step s0 repl _ flag ys]
    rfl

theorem suffix_split : ∀ (A B zs : List Char), zs.IsSuffix (A ++ B) →
    zs.IsSuffix B ∨ ∃ a, a.IsSuffix A ∧ a ≠ [] ∧ zs = a ++ B := by
  intro A
  induction A with
  | nil =>
    intro B zs h
    exact Or.inl (by simpa using h)
  | cons c A2 ih =>
    intro B zs h
    obtain ⟨pre, hpre⟩ := h
    cases pre with
    | nil =>
      right
      refine ⟨c :: A2, List.suffix_refl _, by simp, ?_⟩
      simpa using hpre
    | cons p pre2 =>
      have e : (p :: pre2) ++ zs = p :: (pre2 ++ zs) := rfl
      rw [e] at hpre
      have e2 : (c :: A2) ++ B = c :: (A2 ++ B) := rfl
      rw [e2] at hpre
      have h2 : zs.IsSuffix (A2 ++ B) := ⟨pre2, (List.cons.inj hpre).2⟩
      rcases ih B zs h2 with h3 | ⟨a, ha, hane, rfl⟩
      · exact Or.inl h3
      · exact Or.inr ⟨a, ha.trans ⟨[c], rfl⟩, hane, rfl⟩

theorem noquote_eq : ∀ (A B X Y : List Char) (q : Char),
    A ++ q :: X = B ++ q :: Y → (∀ c ∈ A, c ≠ q) → (∀ c ∈ B, c ≠ q) →
    A = B := by
  intro A
  induction A with
  | nil =>
    intro B X Y q h _ hB
    cases B with
    | nil => rfl
    | cons b B2 =>
      rw [List.nil_append] at h
      have e : (b :: B2) ++ q :: Y = b :: (B2 ++ q :: Y) := rfl
      rw [e] at h
      exact absurd (List.cons.inj h).1.symm (hB b (by simp))
  | cons a A2 ih =>
    intro B X Y q h hA hB
    cases B with
    | nil =>
      rw [List.nil_append] at h
      have e : (a :: A2) ++ q :: X = a :: (A2 ++ q :: X) := rfl
      rw [e] at h
      exact absurd (List.cons.inj h).1 (hA a (by simp))
    | cons b B2 =>
      have e : (a :: A2) ++ q :: X = a :: (A2 ++ q :: X) := rfl
      have e2 : (b :: B2) ++ q :: Y = b :: (B2 ++ q :: Y) := rfl
      rw [e, e2] at h
      obtain ⟨h1, h2⟩ := List.cons.inj h
      rw [h1, ih B2 X Y q h2 (fun c hc => hA c (by simp [hc]))
        (fun c hc => hB c (by simp [hc]))]

theorem ts_lit_run : ∀ (L X : List Char), L ≠ [] →
    runM tsStep (.lit L) (L ++ X) = some X := by
  intro L
  induction L with
  | nil => intro X h; exact absurd rfl h
  | cons p L ih =>
    intro X _
    cases L with
    | nil =>
      have e : ([p] ++ X) = p :: X := rfl
      rw [e, runM_cons]
      simp [tsStep]
    | cons q r =>
      have e : ((p :: q :: r) ++ X) = p :: ((q :: r) ++ X) := rfl
      rw [e, runM_cons]
      simp only [tsStep, if_pos rfl]
      exact ih X (by simp)

theorem ts_lit_decomp : ∀ (L cs rest : List Char), L ≠ [] →
    runM tsStep (.lit L) cs = some rest → cs = L ++ rest := by
  intro L
  induction L with
  | nil => intro cs rest h; exact absurd rfl h
  | cons p L ih =>
    intro cs rest _ h
    cases cs with
    | nil => cases h
    | cons c t =>
      rw [runM_cons] at h
      cases L with
      | nil =>
        by_cases hc : c = p
        · subst hc
          simp only [tsStep, if_pos rfl] at h
          rw [← Option.some.inj h]
          rfl
        · simp only [tsStep, if_neg hc] at h
          cases h
      | cons q r =>
        by_cases hc : c = p
        · subst hc
          simp only [tsStep, if_pos rfl] at h
          have := ih t rest (by simp) h
          rw [this]
          rfl
        · simp only [tsStep, if_neg hc] at h
          cases h

theorem ts_lit_head_ne {p c : Char} (ps X : List Char) (h : c ≠ p) :
    runM tsStep (.lit (p :: ps)) (c :: X) = none := by
  rw [runM_cons]
  cases ps with
  | nil => simp only [tsStep, if_neg h]
  | cons q r => simp only [tsStep, if_neg h]

theorem ts_good_step {s : PStA} {c : Char} {s3 : PStA}
    (hg : ∃ rem, s = .lit rem ∧ rem ≠ [] ∧ rem.length < tsLit.length ∧
        rem.IsSuffix tsLit)
    (hs : tsStep s c = .cont s3) :
    ∃ rem, s3 = .lit rem ∧ rem ≠ [] ∧ rem.length < tsLit.length ∧
        rem.IsSuffix tsLit := by
  obtain ⟨rem, rfl, hne, hlen, hsuf⟩ := hg
  cases rem with
  | nil => exact absurd rfl hne
  | cons p r =>
    cases r with
    | nil =>
      by_cases hc : c = p
      · simp only [tsStep, if_pos hc] at hs
        cases hs
      · simp only [tsStep, if_neg hc] at hs
        cases hs
    | cons q r2 =>
      by_cases hc : c = p
      · simp only [tsStep, if_pos hc] at hs
        rw [← StepRes.cont.inj hs]
        refine ⟨q :: r2, rfl, by simp, ?_, ?_⟩
        · simp only [List.length_cons] at hlen ⊢; omega
        · exact List.IsSuffix.trans ⟨[p], rfl⟩ hsuf
      · simp only [tsStep, if_neg hc] at hs
        cases hs

theorem ts_good_consume : ∀ (ws : List Char) (s s2 : PStA),
    (∃ rem, s = .lit rem ∧ rem ≠ [] ∧ rem.length < tsLit.length ∧
        rem.IsSuffix tsLit) →
    consume tsStep s ws = .more s2 →
    ∃ rem, s2 = .lit rem ∧ rem ≠ [] ∧ rem.length < tsLit.length ∧
        rem.IsSuffix tsLit := by
  intro ws
  induction ws with
  | nil =>
    intro s s2 hg h
    simp only [consume] at h
    rw [← CRes.more.inj h]
    exact hg
  | cons c ws ih =>
    intro s s2 hg h
    rw [consume_cons] at h
    cases hstep : tsStep s c with
    | fail => rw [hstep] at h; cases h
    | done => rw [hstep] at h; cases h
    | cont s3 =>
      rw [hstep] at h
      exact ih s3 s2 (ts_good_step hg hstep) h

theorem ts_reach : ∀ (ws : List Char) (s2 : PStA), ws ≠ [] →
    consume tsStep (.lit tsLit) ws = .more s2 →
    ∃ rem, s2 = .lit rem ∧ rem ≠ [] ∧ rem.length < tsLit.length ∧
        rem.IsSuffix tsLit := by
  intro ws s2 hne h
  cases ws with
  | nil => exact absurd rfl hne
  | cons c ws =>
    rw [consume_cons] at h
    by_cases hc : c = 'r'
    · subst hc
      have hstep : tsStep (.lit tsLit) 'r' =
          .cont (.lit ['e', 't', 'u', 'r', 'n', ' ', apos, '1', '.', '0', '.', '0',
            apos]) := rfl
      rw [hstep] at h
      refine ts_good_consume ws _ s2 ?_ h
      exact ⟨_, rfl, by simp, by decide, by decide⟩
    · have hstep : tsStep (.lit tsLit) c = .fail := by
        simp only [tsLit, tsStep, if_neg hc]
      rw [hstep] at h
      cases h

theorem ts_repl_cons (v : List Char) (W : List Char) :
    tsRepl v ++ W =
      'r' :: 'e' :: 't' :: 'u' :: 'r' :: 'n' :: ' ' :: apos ::
        (v ++ apos :: W) := by
  simp [tsRepl]

theorem ts_kill_lit {rem : List Char} (hne : rem ≠ [])
    (hlen : rem.length < tsLit.length) (hsuf : rem.IsSuffix tsLit)
    (v W : List Char) :
    runM tsStep (.lit rem) (tsRepl v ++ W) = none := by
  have hmem : rem ∈ tsLit.tails := (List.mem_tails rem tsLit).mpr hsuf
  have htails : tsLit.tails =
      [tsLit, ['e', 't', 'u', 'r', 'n', ' ', apos, '1', '.', '0', '.', '0', apos],
        ['t', 'u', 'r', 'n', ' ', apos, '1', '.', '0', '.', '0', apos],
        ['u', 'r', 'n', ' ', apos, '1', '.', '0', '.', '0', apos],
        ['r', 'n', ' ', apos, '1', '.', '0', '.', '0', apos],
        ['n', ' ', apos, '1', '.', '0', '.', '0', apos],
        [' ', apos, '1', '.', '0', '.', '0', apos],
        [apos, '1', '.', '0', '.', '0', apos],
        ['1', '.', '0', '.', '0', apos], ['.', '0', '.', '0', apos],
        ['0', '.', '0', apos], ['.', '0', apos], ['0', apos], [apos], []] := by
    decide
  rw [htails] at hmem
  rw [ts_repl_cons]
  simp only [List.mem_cons, List.not_mem_nil, or_false] at hmem
  rcases hmem with rfl | rfl | rfl | rfl | rfl | rfl | rfl | rfl | rfl | rfl |
    rfl | rfl | rfl | rfl | rfl
  · exact absurd hlen (by simp)
  · exact ts_lit_head_ne _ _ (by decide)
  · exact ts_lit_head_ne _ _ (by decide)
  · exact ts_lit_head_ne _ _ (by decide)
  · rw [runM_cons]
    simp only [tsStep, if_pos rfl]
    exact ts_lit_head_ne _ _ (by decide)
  · exact ts_lit_head_ne _ _ (by decide)
  · exact ts_lit_head_ne _ _ (by decide)
  · exact ts_lit_head_ne _ _ (by decide)
  · exact ts_lit_head_ne _ _ (by decide)
  · exact ts_lit_head_ne _ _ (by decide)
  · exact ts_lit_head_ne _ _ (by decide)
  · exact ts_lit_head_ne _ _ (by decide)
  · exact ts_lit_head_ne _ _ (by decide)
  · exact ts_lit_head_ne _ _ (by decide)
  · exact absurd rfl hne

theorem ts_HX (v : List Char) :
    ∀ (ws m rest W : List Char),
      runM tsStep (.lit tsLit) (m ++ rest) = some rest →
      runM tsStep (.lit tsLit) (ws ++ (m ++ rest)) = none →
      runM tsStep (.lit tsLit) (ws ++ (tsRepl v ++ W)) = none := by
  intro ws m rest W hm hnone
  rw [consume_spec] at hnone ⊢
  cases hcons : consume tsStep (.lit tsLit) ws with
  | fail => rfl
  | done r =>
    have h2 : some (r ++ (m ++ rest)) = none := by
      rw [hcons] at hnone
      exact hnone
    cases h2
  | more s2 =>
    have h2 : runM tsStep s2 (m ++ rest) = none := by
      rw [hcons] at hnone
      exact hnone
    show runM tsStep s2 (tsRepl v ++ W) = none
    by_cases hws : ws = []
    · subst hws
      have h4 : CRes.more (PStA.lit tsLit) = CRes.more s2 := hcons
      rw [← CRes.more.inj h4, hm] at h2
      cases h2
    · obtain ⟨rem, rfl, hne, hlen, hsuf⟩ := ts_reach ws s2 hws hcons
      exact ts_kill_lit hne hlen hsuf v W

theorem ts_none_at_0 {v : List Char} (hv : ∀ c ∈ v, versionChar c)
    (hne : v ≠ ['1', '.', '0', '.', '0']) (W : List Char) :
    runM tsStep (.lit tsLit) (tsRepl v ++ W) = none := by
  cases hrun : runM tsStep (.lit tsLit) (tsRepl v ++ W) with
  | none => rfl
  | some r =>
    exfalso
    have e := ts_lit_decomp tsLit _ r (by simp [tsLit]) hrun
    have e3 : tsRepl v ++ W =
        ['r', 'e', 't', 'u', 'r', 'n', ' ', apos] ++ (v ++ apos :: W) := by
      simp [tsRepl]
    have e4 : tsLit ++ r =
        ['r', 'e', 't', 'u', 'r', 'n', ' ', apos] ++
          (['1', '.', '0', '.', '0'] ++ apos :: r) := by
      simp [tsLit]
    rw [e3, e4] at e
    have e2 : v ++ apos :: W = ['1', '.', '0', '.', '0'] ++ apos :: r :=
      List.append_cancel_left e
    exact hne (noquote_eq v ['1', '.', '0', '.', '0'] W r apos e2
      (fun c hc => versionChar_ne_apos (hv c hc)) (by decide))

theorem ts_HR {v : List Char} (hvv : isValidVersionL v = true) :
    ∀ (flag : Bool) (W : List Char), (!false || flag) = true →
      subst false tsStep (.lit tsLit) (tsRepl v) flag (tsRepl v ++ W) =
        tsRepl v ++ subst false tsStep (.lit tsLit) (tsRepl v) false W := by
  have hv := isValidVersionL_chars hvv
  intro flag W hfl
  by_cases hv5 : v = ['1', '.', '0', '.', '0']
  · have hrun : runM tsStep (.lit tsLit) (tsRepl v ++ W) = some W := by
      have e : tsRepl v ++ W = tsLit ++ W := by rw [hv5]; rfl
      rw [e]
      exact ts_lit_run tsLit W (by simp [tsLit])
    rw [ts_repl_cons] at hrun ⊢
    rw [subst_cons_match hfl hrun]
  · have hsufnone : ∀ zs, zs ≠ [] → zs.IsSuffix (tsRepl v) →
        runM tsStep (.lit tsLit) (zs ++ W) = none := by
      intro zs hzne hsuf
      have e : tsRepl v = ['r', 'e', 't', 'u', 'r', 'n', ' ', apos] ++
          (v ++ [apos]) := by simp [tsRepl]
      rw [e] at hsuf
      rcases suffix_split _ _ zs hsuf with h1 | ⟨a, ha, hane, rfl⟩
      · rcases suffix_split v [apos] zs h1 with h2 | ⟨a, ha, hane, rfl⟩
        · have hmem : zs ∈ ([apos] : List Char).tails :=
            (List.mem_tails zs [apos]).mpr h2
          simp only [List.tails, List.mem_cons, List.not_mem_nil, or_false]
            at hmem
          rcases hmem with rfl | rfl
          · exact ts_lit_head_ne _ _ (by decide)
          · exact absurd rfl hzne
        · cases a with
          | nil => exact absurd rfl hane
          | cons c a2 =>
            have hc : versionChar c := hv c (ha.subset (by simp))
            have e2 : ((c :: a2) ++ [apos]) ++ W = c :: ((a2 ++ [apos]) ++ W) := by
              simp
            rw [e2]
            exact ts_lit_head_ne _ _ (versionChar_ne_r hc)
      · have hmem : a ∈ (['r', 'e', 't', 'u', 'r', 'n', ' ', apos] :
            List Char).tails := (List.mem_tails _ _).mpr ha
        have htails : (['r', 'e', 't', 'u', 'r', 'n', ' ', apos] :
            List Char).tails =
            [['r', 'e', 't', 'u', 'r', 'n', ' ', apos],
              ['e', 't', 'u', 'r', 'n', ' ', apos], ['t', 'u', 'r', 'n', ' ', apos],
              ['u', 'r', 'n', ' ', apos], ['r', 'n', ' ', apos], ['n', ' ', apos],
              [' ', apos], [apos], []] := by decide
        rw [htails] at hmem
        simp only [List.mem_cons, List.not_mem_nil, or_false] at hmem
        rcases hmem with rfl | rfl | rfl | rfl | rfl | rfl | rfl | rfl | rfl
        · have e5 : (['r', 'e', 't', 'u', 'r', 'n', ' ', apos] ++
              (v ++ [apos])) ++ W = tsRepl v ++ W := by simp [tsRepl]
          rw [e5]
          exact ts_none_at_0 hv hv5 W
        · exact ts_lit_head_ne _ _ (by decide)
        · exact ts_lit_head_ne _ _ (by decide)
        · exact ts_lit_head_ne _ _ (by decide)
        · have e5 : (['r', 'n', ' ', apos] ++ (v ++ [apos])) ++ W =
              'r' :: 'n' :: ((' ' :: apos :: (v ++ [apos])) ++ W) := by simp
          rw [e5, runM_cons]
          simp only [tsStep, if_pos rfl]
          exact ts_lit_head_ne _ _ (by decide)
        · exact ts_lit_head_ne _ _ (by decide)
        · exact ts_lit_head_ne _ _ (by decide)
        · exact ts_lit_head_ne _ _ (by decide)
        · exact absurd rfl hane
    rw [subst_prefix_none tsStep (.lit tsLit) (tsRepl v) (tsRepl v) W flag
      hsufnone, subst_flag_irrel tsStep (.lit tsLit) (tsRepl v) flag false W]

theorem subTs_idem {v : List Char} (hv : isValidVersionL v = true)
    (cs : List Char) : subTs v (subTs v cs) = subTs v cs := by
  unfold subTs
  exact subst_idem (ts_HR hv) (ts_HX v) cs.length cs true le_rfl

theorem _read_version_ok {fs : FS} {val : List Char}
    (h : _read_version fs = .ok val) : isValidVersionL val = true := by
  unfold _read_version at h
  cases hvf : fs.version_file with
  | none => rw [hvf] at h; cases h
  | some content =>
    rw [hvf] at h
    by_cases hvalid : isValidVersionL (pyStrip content) = true
    · have h2 : Except.ok (ε := PyError) (pyStrip content) = .ok val := by
        rw [← h]
        simp [hvalid]
      rw [← Except.ok.inj h2]
      exact hvalid
    · have h2 : Except.error (α := List Char) PyError.valueErr = .ok val := by
        rw [← h]
        simp [hvalid]
      cases h2

/-- C1: for every valid current version `(a, b, c)`, `bump_version` with kind
`major` yields `(a+1, 0, 0)`, with `minor` yields `(a, b+1, 0)`, and with
`patch` yields `(a, b, c+1)`; in each case the returned value is the new
triple serialized as `"<major>.<minor>.<patch>"`, that string overwrites the
canonical `VERSION` file content, and it becomes the manager's in-memory
version. -/
theorem claim_C1_bump_correct (a b c : Nat) (fs : FS) :
    bump_version ⟨renderVer a b c⟩ "major" fs =
      (.ok (renderVer (a + 1) 0 0), ⟨renderVer (a + 1) 0 0⟩,
        { fs with version_file := some (renderVer (a + 1) 0 0) },
        ["✅ Version bumped to " ++ String.mk (renderVer (a + 1) 0 0)]) ∧
    bump_version ⟨renderVer a b c⟩ "minor" fs =
      (.ok (renderVer a (b + 1) 0), ⟨renderVer a (b + 1) 0⟩,
        { fs with version_file := some (renderVer a (b + 1) 0) },
        ["✅ Version bumped to " ++ String.mk (renderVer a (b + 1) 0)]) ∧
    bump_version ⟨renderVer a b c⟩ "patch" fs =
      (.ok (renderVer a b (c + 1)), ⟨renderVer a b (c + 1)⟩,
        { fs with version_file := some (renderVer a b (c + 1)) },
        ["✅ Version bumped to " ++ String.mk (renderVer a b (c + 1))]) := by
  refine ⟨?_, ?_, ?_⟩ <;>
    · unfold bump_version
      dsimp only
      rw [pySplitDot_renderVer]
      simp only [List.map_cons, List.map_nil, pyIntL_natRepr]
      rfl

/-- C2: `_read_version` fails with `FileNotFoundError` whenever the canonical
file is absent and with `ValueError` whenever the stripped content does not
match `^\d+\.\d+\.\d+$`; writing any serialized triple `"a.b.c"` and reading
back returns exactly that string; and a constructed manager always holds a
validated version (validation happens before any operation can run). -/
theorem claim_C2_read_version :
    (∀ fs : FS, fs.version_file = none →
      _read_version fs = .error .fileNotFound) ∧
    (∀ (fs : FS) (content : List Char), fs.version_file = some content →
      isValidVersionL (pyStrip content) = false →
      _read_version fs = .error .valueErr) ∧
    (∀ (a b c : Nat) (fs : FS),
      _read_version { fs with version_file := some (renderVer a b c) } =
        .ok (renderVer a b c)) ∧
    (∀ (fs : FS) (m : Mgr), init_manager fs = .ok m →
      isValidVersionL m.version = true) := by
  refine ⟨?_, ?_, ?_, ?_⟩
  · intro fs h
    unfold _read_version
    rw [h]
  · intro fs content h hbad
    unfold _read_version
    rw [h]
    simp [hbad]
  · intro a b c fs
    unfold _read_version
    dsimp only
    rw [pyStrip_renderVer]
    simp [isValidVersionL_renderVer]
  · intro fs m h
    unfold init_manager at h
    cases hr : _read_version fs with
    | error e =>
      rw [hr] at h
      cases h
    | ok val =>
      rw [hr] at h
      have h2 : Mgr.mk val = m := by
        have h3 : Except.ok (ε := PyError) (Mgr.mk val) = .ok m := h
        exact Except.ok.inj h3
      rw [← h2]
      exact _read_version_ok hr

/-- Witness for C2 at concrete inputs, including the spec's examples of
invalid contents. -/
theorem claim_C2_read_version_witness :
    _read_version ⟨none, none, none, none, none, none⟩ = .error .fileNotFound ∧
    _read_version ⟨some "1.0".toList, none, none, none, none, none⟩ =
      .error .valueErr ∧
    _read_version ⟨some "v1.0.0".toList, none, none, none, none, none⟩ =
      .error .valueErr ∧
    _read_version ⟨some "1.0.0-beta".toList, none, none, none, none, none⟩ =
      .error .valueErr ∧
    _read_version ⟨some (renderVer 1 2 3), none, none, none, none, none⟩ =
      .ok (renderVer 1 2 3) := by
  refine ⟨?_, ?_, ?_, ?_, ?_⟩
  · exact claim_C2_read_version.1 _ rfl
  · exact claim_C2_read_version.2.1 _ _ rfl (by decide)
  · exact claim_C2_read_version.2.1 _ _ rfl (by decide)
  · exact claim_C2_read_version.2.1 _ _ rfl (by decide)
  · exact claim_C2_read_version.2.2.1 1 2 3 ⟨none, none, none, none, none, none⟩

/-- C3: for any bump kind outside major/minor/patch, `bump_version` raises
`ValueError` before touching anything: the canonical file content and the
manager's in-memory version are both returned unchanged, and nothing is
printed. -/
theorem claim_C3_bump_invalid (m : Mgr) (bt : String) (fs : FS)
    (hv : isValidVersionL m.version = true)
    (h1 : bt ≠ "major") (h2 : bt ≠ "minor") (h3 : bt ≠ "patch") :
    bump_version m bt fs = (.error .invalidBumpType, m, fs, []) := by
  obtain ⟨A, B, C, hver, hAne, hBne, hCne, hAdig, hBdig, hCdig⟩ :=
    isValidVersionL_decomp hv
  unfold bump_version
  rw [hver, pySplitDot_append_dot A _
      (fun c hc => ne_of_isDigit (hAdig c hc) (by decide)),
    pySplitDot_append_dot B _
      (fun c hc => ne_of_isDigit (hBdig c hc) (by decide)),
    pySplitDot_no_dot C (fun c hc => ne_of_isDigit (hCdig c hc) (by decide))]
  have hA : pyIntL A = some (natVal A) := by
    unfold pyIntL
    rw [if_pos ⟨hAne, List.all_eq_true.mpr hAdig⟩]
  have hB : pyIntL B = some (natVal B) := by
    unfold pyIntL
    rw [if_pos ⟨hBne, List.all_eq_true.mpr hBdig⟩]
  have hC : pyIntL C = some (natVal C) := by
    unfold pyIntL
    rw [if_pos ⟨hCne, List.all_eq_true.mpr hCdig⟩]
  simp only [List.map_cons, List.map_nil, hA, hB, hC]
  simp only [if_neg h1, if_neg h2, if_neg h3]

/-- Witness for C3 at a concrete invalid bump kind. -/
theorem claim_C3_bump_invalid_witness :
    bump_version ⟨renderVer 1 2 3⟩ "bogus"
        ⟨some (renderVer 1 2 3), none, none, none, none, none⟩ =
      (.error .invalidBumpType, ⟨renderVer 1 2 3⟩,
        ⟨some (renderVer 1 2 3), none, none, none, none, none⟩, []) :=
  claim_C3_bump_invalid ⟨renderVer 1 2 3⟩ "bogus" _
    (isValidVersionL_renderVer 1 2 3) (by decide) (by decide) (by decide)

/-- C4: `update_all_components` runs the three propagation targets plus the
header generation exactly once each, in a fixed order, threading the file
system through; the result map always carries one Boolean per target, for
every oracle and file system (so no failure short-circuits the rest). -/
theorem claim_C4_update_all (v : List Char) (o : Oracle) (fs : FS) :
    (update_all_components v o fs).1 =
      [("backend", (update_backend_version v o fs).1),
        ("frontend_package",
          (update_frontend_version v o (update_backend_version v o fs).2.1).1),
        ("typescript",
          (update_typescript_version v o
            (update_frontend_version v o
              (update_backend_version v o fs).2.1).2.1).1),
        ("version_header",
          (create_version_header v o
            (update_typescript_version v o
              (update_frontend_version v o
                (update_backend_version v o fs).2.1).2.1).2.1).1)] ∧
    (update_all_components v o fs).1.map Prod.fst =
      ["backend", "frontend_package", "typescript", "version_header"] :=
  ⟨rfl, rfl⟩

theorem update_all_keys (v : List Char) (o : Oracle) (fs : FS) :
    (update_all_components v o fs).1.map Prod.fst =
      ["backend", "frontend_package", "typescript", "version_header"] := rfl

/-- C5: a target file that exists (and is readable) but contains no match of
its pattern is left byte-for-byte unchanged, the operation returns failure,
and only the pattern-absent warning is printed — for the backend manifest,
the frontend manifest, and both TypeScript files. -/
theorem claim_C5_pattern_absent (v : List Char) (o : Oracle) (fs : FS)
    (cb cf c1 c2 : List Char)
    (hb : fs.cargo = some cb) (hbs : searchCargo cb = false)
    (hbr : o.cargoRead = none)
    (hf : fs.package = some cf) (hfs : searchFront cf = false)
    (hfr : o.pkgRead = none)
    (h1 : fs.autoUpdater = some c1) (h1s : searchTs c1 = false)
    (h1r : o.ts1Read = none)
    (h2 : fs.backendService = some c2) (h2s : searchTs c2 = false)
    (h2r : o.ts2Read = none) :
    update_backend_version v o fs =
      (false, fs, ["⚠️  Version line not found in backend/Cargo.toml"]) ∧
    update_frontend_version v o fs =
      (false, fs, ["⚠️  Version line not found in frontend/package.json"]) ∧
    update_typescript_version v o fs =
      (false, fs,
        ["⚠️  Version string not found in frontend/src/services/AutoUpdater.ts",
          "⚠️  Version string not found in frontend/src/services/BackendService.ts"]) := by
  refine ⟨?_, ?_, ?_⟩
  · unfold update_backend_version
    rw [hb, hbr]
    simp [hbs]
  · unfold update_frontend_version
    rw [hf, hfr]
    simp [hfs]
  · unfold update_typescript_version update_ts_file
    rw [h1, h2, h1r, h2r]
    simp only [h1s, h2s, Bool.false_eq_true, if_false]
    rw [← h1, ← h2]
    rfl

/-- Witness for C5 at concrete pattern-free contents. -/
theorem claim_C5_pattern_absent_witness :
    update_backend_version ['2', '.', '0', '.', '0'] reliable
        ⟨none, some "[package]".toList, some "no fields here".toList,
          some "export default 1;".toList, some "const x = 2;".toList, none⟩ =
      (false,
        ⟨none, some "[package]".toList, some "no fields here".toList,
          some "export default 1;".toList, some "const x = 2;".toList, none⟩,
        ["⚠️  Version line not found in backend/Cargo.toml"]) :=
  (claim_C5_pattern_absent ['2', '.', '0', '.', '0'] reliable _
    "[package]".toList "no fields here".toList "export default 1;".toList
    "const x = 2;".toList rfl (by decide) rfl rfl (by decide) rfl rfl
    (by decide) rfl rfl (by decide) rfl).1

/-- C6: a missing target file yields a warning and a returned failure, with
no file created (the file system is unchanged); the failure is non-fatal —
the TypeScript loop still reports its second file, and
`update_all_components` still produces an entry for every target. -/
theorem claim_C6_missing_target (v : List Char) (o : Oracle) (fs : FS)
    (hb : fs.cargo = none) (hf : fs.package = none)
    (h1 : fs.autoUpdater = none) (h2 : fs.backendService = none) :
    update_backend_version v o fs =
      (false, fs, ["⚠️  Backend Cargo.toml not found at backend/Cargo.toml"]) ∧
    update_frontend_version v o fs =
      (false, fs, ["⚠️  Frontend package.json not found at frontend/package.json"]) ∧
    update_typescript_version v o fs =
      (false, fs,
        ["⚠️  TypeScript file not found: frontend/src/services/AutoUpdater.ts",
          "⚠️  TypeScript file not found: frontend/src/services/BackendService.ts"]) ∧
    (update_all_components v o fs).1.map Prod.fst =
      ["backend", "frontend_package", "typescript", "version_header"] := by
  refine ⟨?_, ?_, ?_, update_all_keys v o fs⟩
  · unfold update_backend_version
    rw [hb]
  · unfold update_frontend_version
    rw [hf]
  · obtain ⟨vf, cg, pk, au, bs, vt⟩ := fs
    dsimp only at h1 h2
    subst h1 h2
    rfl

/-- Witness for C6 on an empty project tree. -/
theorem claim_C6_missing_target_witness :
    update_backend_version ['1', '.', '0', '.', '0'] reliable
        ⟨some (renderVer 1 0 0), none, none, none, none, none⟩ =
      (false, ⟨some (renderVer 1 0 0), none, none, none, none, none⟩,
        ["⚠️  Backend Cargo.toml not found at backend/Cargo.toml"]) ∧
    (update_all_components ['1', '.', '0', '.', '0'] reliable
        ⟨some (renderVer 1 0 0), none, none, none, none, none⟩).1.map Prod.fst =
      ["backend", "frontend_package", "typescript", "version_header"] := by
  have h := claim_C6_missing_target ['1', '.', '0', '.', '0'] reliable
    ⟨some (renderVer 1 0 0), none, none, none, none, none⟩ rfl rfl rfl rfl
  exact ⟨h.1, h.2.2.2⟩

theorem update_backend_eq_none {v : List Char} {o : Oracle} {fs : FS}
    (h : fs.cargo = none) :
    update_backend_version v o fs =
      (false, fs, ["⚠️  Backend Cargo.toml not found at backend/Cargo.toml"]) := by
  unfold update_backend_version
  rw [h]

theorem update_backend_eq_readfail {v : List Char} {o : Oracle} {fs : FS}
    {content : List Char} {e : String}
    (hc : fs.cargo = some content) (hr : o.cargoRead = some e) :
    update_backend_version v o fs =
      (false, fs, ["❌ Error updating backend version: " ++ e]) := by
  unfold update_backend_version
  rw [hc, hr]

theorem update_backend_eq_nomatch {v : List Char} {o : Oracle} {fs : FS}
    {content : List Char}
    (hc : fs.cargo = some content) (hr : o.cargoRead = none)
    (hs : searchCargo content = false) :
    update_backend_version v o fs =
      (false, fs, ["⚠️  Version line not found in backend/Cargo.toml"]) := by
  unfold update_backend_version
  rw [hc, hr]
  simp [hs]

theorem update_backend_eq_writefail {v : List Char} {o : Oracle} {fs : FS}
    {content : List Char} {e : String}
    (hc : fs.cargo = some content) (hr : o.cargoRead = none)
    (hs : searchCargo content = true) (hw : o.cargoWrite = some e) :
    update_backend_version v o fs =
      (false, fs, ["❌ Error updating backend version: " ++ e]) := by
  unfold update_backend_version
  rw [hc, hr, hw]
  simp [hs]

theorem update_backend_eq_write {v : List Char} {o : Oracle} {fs : FS}
    {content : List Char}
    (hc : fs.cargo = some content) (hr : o.cargoRead = none)
    (hs : searchCargo content = true) (hw : o.cargoWrite = none) :
    update_backend_version v o fs =
      (true, { fs with cargo := some (subCargo v content) },
        ["✅ Backend version updated to " ++ String.mk v]) := by
  unfold update_backend_version
  rw [hc, hr, hw]
  simp [hs]

theorem update_frontend_eq_none {v : List Char} {o : Oracle} {fs : FS}
    (h : fs.package = none) :
    update_frontend_version v o fs =
      (false, fs, ["⚠️  Frontend package.json not found at frontend/package.json"]) := by
  unfold update_frontend_version
  rw [h]

theorem update_frontend_eq_readfail {v : List Char} {o : Oracle} {fs : FS}
    {content : List Char} {e : String}
    (hc : fs.package = some content) (hr : o.pkgRead = some e) :
    update_frontend_version v o fs =
      (false, fs, ["❌ Error updating frontend version: " ++ e]) := by
  unfold update_frontend_version
  rw [hc, hr]

theorem update_frontend_eq_nomatch {v : List Char} {o : Oracle} {fs : FS}
    {content : List Char}
    (hc : fs.package = some content) (hr : o.pkgRead = none)
    (hs : searchFront content = false) :
    update_frontend_version v o fs =
      (false, fs, ["⚠️  Version line not found in frontend/package.json"]) := by
  unfold update_frontend_version
  rw [hc, hr]
  simp [hs]

theorem update_frontend_eq_writefail {v : List Char} {o : Oracle} {fs : FS}
    {content : List Char} {e : String}
    (hc : fs.package = some content) (hr : o.pkgRead = none)
    (hs : searchFront content = true) (hw : o.pkgWrite = some e) :
    update_frontend_version v o fs =
      (false, fs, ["❌ Error updating frontend version: " ++ e]) := by
  unfold update_frontend_version
  rw [hc, hr, hw]
  simp [hs]

theorem update_frontend_eq_write {v : List Char} {o : Oracle} {fs : FS}
    {content : List Char}
    (hc : fs.package = some content) (hr : o.pkgRead = none)
    (hs : searchFront content = true) (hw : o.pkgWrite = none) :
    update_frontend_version v o fs =
      (true, { fs with package := some (subFront v content) },
        ["✅ Frontend version updated to " ++ String.mk v]) := by
  unfold update_frontend_version
  rw [hc, hr, hw]
  simp [hs]

theorem update_ts_file_eq_nomatch {v : List Char} {readO writeO : Option String}
    {path : String} {c : List Char}
    (hr : readO = none) (hs : searchTs c = false) :
    update_ts_file v readO writeO path (some c) =
      (false, some c, ["⚠️  Version string not found in " ++ path]) := by
  unfold update_ts_file
  rw [hr]
  simp [hs]

theorem update_ts_file_eq_write {v : List Char} {readO writeO : Option String}
    {path : String} {c : List Char}
    (hr : readO = none) (hs : searchTs c = true) (hw : writeO = none) :
    update_ts_file v readO writeO path (some c) =
      (true, some (subTs v c), ["✅ TypeScript version updated in " ++ path]) := by
  unfold update_ts_file
  rw [hr, hw]
  simp [hs]

theorem update_backend_stable (v : List Char) (hv : isValidVersionL v = true)
    (o : Oracle) (fs : FS) :
    (update_backend_version v o (update_backend_version v o fs).2.1).2.1.cargo =
      (update_backend_version v o fs).2.1.cargo := by
  cases hc : fs.cargo with
  | none =>
    rw [update_backend_eq_none hc]
    dsimp only
    rw [update_backend_eq_none hc]
  | some content =>
    cases hr : o.cargoRead with
    | some e =>
      rw [update_backend_eq_readfail hc hr]
      dsimp only
      rw [update_backend_eq_readfail hc hr]
    | none =>
      by_cases hs : searchCargo content = true
      · cases hw : o.cargoWrite with
        | some e =>
          rw [update_backend_eq_writefail hc hr hs hw]
          dsimp only
          rw [update_backend_eq_writefail hc hr hs hw]
        | none =>
          rw [update_backend_eq_write hc hr hs hw]
          dsimp only
          by_cases hs2 : searchCargo (subCargo v content) = true
          · rw [update_backend_eq_write rfl hr hs2 hw]
            dsimp only
            rw [subCargo_idem hv]
          · rw [update_backend_eq_nomatch rfl hr
              (by simpa using hs2)]
      · have hs3 : searchCargo content = false := by simpa using hs
        rw [update_backend_eq_nomatch hc hr hs3]
        dsimp only
        rw [update_backend_eq_nomatch hc hr hs3]

theorem update_frontend_stable (v : List Char) (hv : isValidVersionL v = true)
    (o : Oracle) (fs : FS) :
    (update_frontend_version v o
        (update_frontend_version v o fs).2.1).2.1.package =
      (update_frontend_version v o fs).2.1.package := by
  cases hc : fs.package with
  | none =>
    rw [update_frontend_eq_none hc]
    dsimp only
    rw [update_frontend_eq_none hc]
  | some content =>
    cases hr : o.pkgRead with
    | some e =>
      rw [update_frontend_eq_readfail hc hr]
      dsimp only
      rw [update_frontend_eq_readfail hc hr]
    | none =>
      by_cases hs : searchFront content = true
      · cases hw : o.pkgWrite with
        | some e =>
          rw [update_frontend_eq_writefail hc hr hs hw]
          dsimp only
          rw [update_frontend_eq_writefail hc hr hs hw]
        | none =>
          rw [update_frontend_eq_write hc hr hs hw]
          dsimp only
          by_cases hs2 : searchFront (subFront v content) = true
          · rw [update_frontend_eq_write rfl hr hs2 hw]
            dsimp only
            rw [subFront_idem hv]
          · rw [update_frontend_eq_nomatch rfl hr (by simpa using hs2)]
      · have hs3 : searchFront content = false := by simpa using hs
        rw [update_frontend_eq_nomatch hc hr hs3]
        dsimp only
        rw [update_frontend_eq_nomatch hc hr hs3]

theorem update_ts_file_stable (v : List Char) (hv : isValidVersionL v = true)
    (readO writeO : Option String) (path : String)
    (content : Option (List Char)) :
    (update_ts_file v readO writeO path
        (update_ts_file v readO writeO path content).2.1).2.1 =
      (update_ts_file v readO writeO path content).2.1 := by
  cases content with
  | none => rfl
  | some c =>
    cases hr : readO with
    | some e => rfl
    | none =>
      by_cases hs : searchTs c = true
      · cases hw : writeO with
        | some e =>
          have e1 : update_ts_file v none (some e) path (some c) =
              (false, some c, ["❌ Error updating " ++ path ++ ": " ++ e]) := by
            unfold update_ts_file
            simp [hs]
          rw [e1]
          dsimp only
          rw [e1]
        | none =>
          rw [update_ts_file_eq_write rfl hs rfl]
          dsimp only
          by_cases hs2 : searchTs (subTs v c) = true
          · rw [update_ts_file_eq_write rfl hs2 rfl]
            dsimp only
            rw [subTs_idem hv]
          · rw [update_ts_file_eq_nomatch rfl (by simpa using hs2)]
      · have hs3 : searchTs c = false := by simpa using hs
        rw [update_ts_file_eq_nomatch rfl hs3]
        dsimp only
        rw [update_ts_file_eq_nomatch rfl hs3]

/-- C7: propagation is idempotent on file content: for any current version of
the manager (always a validated version string) and any file system and
oracle, running a propagation operation twice leaves each target file with
the same content as running it once — for the backend manifest, the frontend
manifest, and both TypeScript files. -/
theorem claim_C7_idempotent (v : List Char) (hv : isValidVersionL v = true)
    (o : Oracle) (fs : FS) :
    ((update_backend_version v o (update_backend_version v o fs).2.1).2.1.cargo =
      (update_backend_version v o fs).2.1.cargo) ∧
    ((update_frontend_version v o
        (update_frontend_version v o fs).2.1).2.1.package =
      (update_frontend_version v o fs).2.1.package) ∧
    ((update_typescript_version v o
        (update_typescript_version v o fs).2.1).2.1.autoUpdater =
      (update_typescript_version v o fs).2.1.autoUpdater) ∧
    ((update_typescript_version v o
        (update_typescript_version v o fs).2.1).2.1.backendService =
      (update_typescript_version v o fs).2.1.backendService) := by
  refine ⟨update_backend_stable v hv o fs, update_frontend_stable v hv o fs,
    ?_, ?_⟩
  · exact update_ts_file_stable v hv o.ts1Read o.ts1Write
      "frontend/src/services/AutoUpdater.ts" fs.autoUpdater
  · exact update_ts_file_stable v hv o.ts2Read o.ts2Write
      "frontend/src/services/BackendService.ts" fs.backendService

/-- Witness for C7: a concrete manifest whose version line is rewritten once;
a second run changes nothing. -/
theorem claim_C7_idempotent_witness :
    (update_backend_version (renderVer 2 1 0) reliable
        (update_backend_version (renderVer 2 1 0) reliable
          ⟨none, some "version = \"2.0.9\"\nname = \"x\"".toList, none, none,
            none, none⟩).2.1).2.1.cargo =
      (update_backend_version (renderVer 2 1 0) reliable
        ⟨none, some "version = \"2.0.9\"\nname = \"x\"".toList, none, none,
          none, none⟩).2.1.cargo :=
  (claim_C7_idempotent (renderVer 2 1 0) (isValidVersionL_renderVer 2 1 0)
    reliable _).1

/-- C8: any exception an oracle injects into a read or write inside a single
propagation operation is caught there: the operation returns `false` (with
the error reported, carrying its cause) and the exception reaches no caller —
a failing TypeScript file does not stop the loop's next file, and
`update_all_components` still yields an entry for every target under every
oracle. -/
theorem claim_C8_errors_contained (v : List Char) (o : Oracle) (fs : FS) :
    (∀ (cb : List Char) (e : String), fs.cargo = some cb →
      o.cargoRead = some e →
      update_backend_version v o fs =
        (false, fs, ["❌ Error updating backend version: " ++ e])) ∧
    (∀ (cb : List Char) (e : String), fs.cargo = some cb → o.cargoRead = none →
      searchCargo cb = true → o.cargoWrite = some e →
      update_backend_version v o fs =
        (false, fs, ["❌ Error updating backend version: " ++ e])) ∧
    (∀ (cf : List Char) (e : String), fs.package = some cf →
      o.pkgRead = some e →
      update_frontend_version v o fs =
        (false, fs, ["❌ Error updating frontend version: " ++ e])) ∧
    (∀ e : String, o.hdrWrite = some e →
      create_version_header v o fs =
        (false, fs, ["❌ Error creating version header: " ++ e])) ∧
    (∀ (c1 c2 : List Char) (e : String), fs.autoUpdater = some c1 →
      o.ts1Read = some e → fs.backendService = some c2 → o.ts2Read = none →
      searchTs c2 = true → o.ts2Write = none →
      update_typescript_version v o fs =
        (true, { fs with backendService := some (subTs v c2) },
          ["❌ Error updating frontend/src/services/AutoUpdater.ts: " ++ e,
            "✅ TypeScript version updated in frontend/src/services/BackendService.ts"])) ∧
    ((update_all_components v o fs).1.map Prod.fst =
      ["backend", "frontend_package", "typescript", "version_header"]) := by
  refine ⟨?_, ?_, ?_, ?_, ?_, update_all_keys v o fs⟩
  · intro cb e hc hr
    exact update_backend_eq_readfail hc hr
  · intro cb e hc hr hs hw
    exact update_backend_eq_writefail hc hr hs hw
  · intro cf e hc hr
    exact update_frontend_eq_readfail hc hr
  · intro e h
    unfold create_version_header
    rw [h]
  · intro c1 c2 e h1 hr1 h2 hr2 hs2 hw2
    obtain ⟨vf, cg, pk, au, bs, vt⟩ := fs
    dsimp only at h1 h2
    subst h1 h2
    unfold update_typescript_version
    rw [update_ts_file_eq_write hr2 hs2 hw2]
    unfold update_ts_file
    rw [hr1]
    rfl

/-- Witness for C8: a concrete read failure on the backend manifest is
converted into a returned failure with its cause reported. -/
theorem claim_C8_errors_contained_witness :
    update_backend_version (renderVer 1 2 3)
        ⟨some "disk on fire", none, none, none, none, none, none, none, none⟩
        ⟨none, some "version = \"1.2.2\"".toList, none, none, none, none⟩ =
      (false, ⟨none, some "version = \"1.2.2\"".toList, none, none, none, none⟩,
        ["❌ Error updating backend version: " ++ "disk on fire"]) :=
  (claim_C8_errors_contained (renderVer 1 2 3)
    ⟨some "disk on fire", none, none, none, none, none, none, none, none⟩
    ⟨none, some "version = \"1.2.2\"".toList, none, none, none, none⟩).1
    "version = \"1.2.2\"".toList "disk on fire" rfl rfl

/-- C9 counterexample: contrary to the claim, a missing bump-type argument, an
invalid bump type, and an unrecognized command all terminate `main` with exit
code 0 (the source prints the error and `return`s; `sys.exit(1)` is reached
only from the `except` branch). -/
theorem claim_C9_counterexample :
    (mainEntry ["version_manager.py", "bump"] reliable
        ⟨some ['1', '.', '2', '.', '3'], none, none, none, none, none⟩).1 = 0 ∧
    (mainEntry ["version_manager.py", "bump", "bogus"] reliable
        ⟨some ['1', '.', '2', '.', '3'], none, none, none, none, none⟩).1 = 0 ∧
    (mainEntry ["version_manager.py", "mystery"] reliable
        ⟨some ['1', '.', '2', '.', '3'], none, none, none, none, none⟩).1 = 0 := by
  refine ⟨rfl, rfl, rfl⟩

/-- C9 as amended: with a readable, valid canonical version, a missing or
invalid bump-type argument and an unrecognized command each print an error
report and terminate normally with exit code 0, mutating no state (the file
system is returned unchanged). -/
theorem claim_C9_amended (p bt cmd : String) (o : Oracle) (fs : FS) (m : Mgr)
    (hm : init_manager fs = .ok m)
    (hbt1 : bt ≠ "major") (hbt2 : bt ≠ "minor") (hbt3 : bt ≠ "patch")
    (hc1 : cmd ≠ "update-all") (hc2 : cmd ≠ "bump") (hc3 : cmd ≠ "info")
    (hc4 : cmd ≠ "create-header") :
    mainEntry [p, "bump"] o fs =
      (0, fs, ["❌ Please specify bump type: major, minor, or patch"]) ∧
    mainEntry [p, "bump", bt] o fs =
      (0, fs, ["❌ Invalid bump type. Use: major, minor, or patch"]) ∧
    mainEntry [p, cmd] o fs =
      (0, fs, ["❌ Unknown command: " ++ cmd,
        "Use: update-all, bump, info, or create-header"]) := by
  refine ⟨?_, ?_, ?_⟩
  · unfold mainEntry
    rw [hm]
    rfl
  · unfold mainEntry
    rw [hm]
    simp [hbt1, hbt2, hbt3]
  · unfold mainEntry
    rw [hm]
    simp [hc1, hc2, hc3, hc4]

/-- Witness for the amended C9 at concrete inputs. -/
theorem claim_C9_amended_witness :
    mainEntry ["version_manager.py", "oops"] reliable
        ⟨some ['1', '.', '2', '.', '3'], none, none, none, none, none⟩ =
      (0, ⟨some ['1', '.', '2', '.', '3'], none, none, none, none, none⟩,
        ["❌ Unknown command: " ++ "oops",
          "Use: update-all, bump, info, or create-header"]) :=
  (claim_C9_amended "version_manager.py" "zzz" "oops" reliable
    ⟨some ['1', '.', '2', '.', '3'], none, none, none, none, none⟩
    ⟨['1', '.', '2', '.', '3']⟩ rfl (by decide) (by decide) (by decide)
    (by decide) (by decide) (by decide) (by decide)).2.2

/-- C10: the generated declarations artifact is a deterministic function of
the current version alone: any two successful runs write the identical
content `headerContent v`, whose build-date line is the literal runtime
expression `new Date().toISOString()` — no generation-time value varies from
run to run. -/
theorem claim_C10_header_deterministic (v : List Char) (o1 o2 : Oracle)
    (fs1 fs2 : FS) (h1 : o1.hdrWrite = none) (h2 : o2.hdrWrite = none) :
    (create_version_header v o1 fs1).2.1.versionTs =
      (create_version_header v o2 fs2).2.1.versionTs ∧
    (create_version_header v o1 fs1).2.1.versionTs = some (headerContent v) ∧
    hdrBuildDate.IsInfix (headerContent v) := by
  refine ⟨?_, ?_, ?_⟩
  · unfold create_version_header
    rw [h1, h2]
  · unfold create_version_header
    rw [h1]
  · exact ⟨hdrP1 ++ v ++ hdrP2 ++ v ++ hdrP3, hdrP4, by simp [headerContent]⟩

/-- Witness for C10 at a concrete version and two different file systems. -/
theorem claim_C10_header_deterministic_witness :
    (create_version_header (renderVer 3 0 1) reliable
        ⟨none, none, none, none, none, none⟩).2.1.versionTs =
      (create_version_header (renderVer 3 0 1) reliable
        ⟨some ['x'], some ['y'], none, none, none, some ['z']⟩).2.1.versionTs :=
  (claim_C10_header_deterministic (renderVer 3 0 1) reliable reliable
    ⟨none, none, none, none, none, none⟩
    ⟨some ['x'], some ['y'], none, none, none, some ['z']⟩ rfl rfl).1
